import Mathlib

/-!
# simulate-interview: the compile-and-run engine

A shallow embedding of `backend/services/execution_service.go`,
`backend/handlers/execution_handler.go`, the data types of
`backend/models/models.go` they use, the functions of
`backend/utils/string_utils.go`, and `GenerateSuggestedAreas` of
`backend/services/platform_stats_service.go`.

Modelling conventions.

* Go `string` values are modelled as Lean `String` (sequences of Unicode code
  points); the text is taken to be valid UTF-8, which is what the JSON decoder
  delivers for request fields.
* Go `int` is modelled as `Int`. In the execution engine no computation can
  leave the 64-bit range (the only arithmetic is on slice lengths and
  indices); the sums of problem counts in `GenerateSuggestedAreas` are wrapped
  to 64 bits with `wrapInt`.
* A Go map is the list of its entries; a loop over a map visits the entries in
  the order of the list, and for the map built inside `GenerateSuggestedAreas`
  that order is a parameter.
* A Go `error` is modelled by its message, `Option String`, `none` being `nil`.
* The operating system is an explicit environment: what `uuid.New`,
  `os.WriteFile`, the compiler run and each run of the binary deliver is read
  from a record, and every effect the code performs (file written, file
  removed, command started, process killed) is appended to a list of events.
  `log.Printf` calls are not modelled.
* The files are the set of paths that exist; only `os.Remove` is given a
  meaning on them (its path is absent afterwards), what the other events do to
  the files is a parameter.
-/

namespace SimulateInterview

/-! ## `models/models.go` -/

/-- The Go struct `models.TestCase`. -/
structure TestCase where
  Input : String
  ExpectedOutput : String
  Explanation : String
  deriving DecidableEq, Repr

/-- The Go struct `models.Problem`, restricted to the fields the execution
handler reads (`Title`, `SampleCases`, `HiddenCases`). -/
structure Problem where
  Title : String
  SampleCases : List TestCase
  HiddenCases : List TestCase
  deriving DecidableEq, Repr

/-- The Go struct `models.ProblemGenerationResponse`, which `LoadMockProblem`
returns, restricted to the fields the execution handler reads. -/
structure ProblemGenerationResponse where
  Title : String
  SampleCases : List TestCase
  HiddenCases : List TestCase
  deriving DecidableEq, Repr

/-- The Go struct `models.ExecutionRequest`; `Code` and `ProblemID` carry the
tag `binding:"required"`. -/
structure ExecutionRequest where
  Code : String
  ProblemID : String
  CustomCases : List TestCase
  Mode : String
  deriving DecidableEq, Repr

/-- The Go struct `models.ExecutionResult`. -/
structure ExecutionResult where
  CaseNumber : Int
  Input : String
  ExpectedOutput : String
  ActualOutput : String
  Passed : Bool
  Error : String
  deriving DecidableEq, Repr

/-- The Go struct `models.ExecutionResponse`. -/
structure ExecutionResponse where
  Success : Bool
  Results : List ExecutionResult
  TotalPassed : Int
  TotalCases : Int
  deriving DecidableEq, Repr

/-! ## The Go standard library functions the code calls -/

/-- Go `unicode.IsSpace`: the Latin-1 spaces `\t \n \v \f \r`, space, U+0085,
U+00A0, and the other code points with the White_Space property. -/
def isSpace (r : Char) : Bool :=
  let n := r.toNat
  n == 9 || n == 10 || n == 11 || n == 12 || n == 13 || n == 32
    || n == 0x85 || n == 0xA0 || n == 0x1680 || (0x2000 ≤ n && n ≤ 0x200A)
    || n == 0x2028 || n == 0x2029 || n == 0x202F || n == 0x205F || n == 0x3000

/-- Go `strings.TrimSpace`: all leading and trailing white space removed. -/
def TrimSpace (s : String) : String :=
  String.mk ((s.data.dropWhile isSpace).rdropWhile isSpace)

/-- Whether the characters of `p` are the first characters of `s`. -/
def startsWith : List Char → List Char → Bool
  | _, [] => true
  | [], _ :: _ => false
  | a :: s, b :: p => a == b && startsWith s p

/-- Whether `p` occurs in `s` as a contiguous run of characters. -/
def containsChars : List Char → List Char → Bool
  | [], p => p.isEmpty
  | a :: s, p => startsWith (a :: s) p || containsChars s p

/-- Go `strings.Contains`. -/
def Contains (s substr : String) : Bool :=
  containsChars s.data substr.data

/-- Go `strings.HasPrefix`. -/
def HasPrefix (s p : String) : Bool :=
  startsWith s.data p.data

/-- The position of the first occurrence of `p` in `s`, if there is one. -/
def indexChars : List Char → List Char → Option Nat
  | [], p => if p.isEmpty then some 0 else none
  | a :: s, p =>
    if startsWith (a :: s) p then some 0 else (indexChars s p).map (fun k => k + 1)

/-- The position of the last occurrence of `p` in `s`, if there is one. -/
def lastIndexChars : List Char → List Char → Option Nat
  | [], p => if p.isEmpty then some 0 else none
  | a :: s, p =>
    match lastIndexChars s p with
    | some k => some (k + 1)
    | none => if startsWith (a :: s) p then some 0 else none

/-- Go `strings.Index`: the position of the first occurrence of `substr` in
`s`, or -1. Positions count code points where Go counts bytes; the code only
compares the positions of the one-byte characters it looks for and slices
between them, which gives the same text either way. -/
def Index (s substr : String) : Int :=
  match indexChars s.data substr.data with
  | some k => (k : Int)
  | none => -1

/-- Go `strings.LastIndex`: the position of the last occurrence of `substr` in
`s`, or -1. -/
def LastIndex (s substr : String) : Int :=
  match lastIndexChars s.data substr.data with
  | some k => (k : Int)
  | none => -1

/-- The Go slice expression `s[lo:hi]`, for `0 ≤ lo ≤ hi ≤ len(s)`. -/
def slice (s : String) (lo hi : Int) : String :=
  String.mk ((s.data.drop lo.toNat).take (hi.toNat - lo.toNat))

/-- The loop of Go `strings.Split` for a separator that is not empty: the text
before the first occurrence of `sep`, then the split of what follows it;
`fuel` bounds the number of separators found. -/
def splitChars (sep : List Char) : Nat → List Char → List (List Char)
  | 0, s => [s]
  | fuel + 1, s =>
    match indexChars s sep with
    | none => [s]
    | some m => s.take m :: splitChars sep fuel (s.drop (m + sep.length))

/-- Go `strings.Split`: the pieces of `s` between the occurrences of `sep`,
found from left to right without overlap; with an empty `sep`, the characters
of `s`. -/
def Split (s sep : String) : List String :=
  if sep.data.isEmpty then s.data.map (fun c => String.mk [c])
  else (splitChars sep.data s.data.length s.data).map String.mk

/-- Go `time.Second`, a `time.Duration` in nanoseconds. -/
def Second : Nat := 1000000000

/-! ## The environment -/

/-- How a command started with `os/exec` ended. -/
inductive ProcessEnd where
  /-- The command could not be started. -/
  | startFailed
  /-- The command ran and exited with this status. -/
  | exited (status : Int)
  deriving DecidableEq, Repr

/-- Whether `cmd.Run()` / `cmd.CombinedOutput()` return a non-nil error: they
return `nil` exactly when the command started and exited with status 0 (copying
to and from the in-memory buffers used here does not fail). -/
def ProcessEnd.err : ProcessEnd → Bool
  | .startFailed => true
  | .exited status => status != 0

/-- Which branch of the `select` in `runTestCase` is taken. -/
inductive SelectOutcome where
  /-- `case err := <-done`: `cmd.Run()` returned before the timer fired. -/
  | done (e : ProcessEnd)
  /-- `case <-time.After(EXECUTION_TIMEOUT)`: the timer fired first. -/
  | timeout
  deriving DecidableEq, Repr

/-- What one run of the binary delivers to `runTestCase`: the branch of the
`select`, and the contents of the `stdout` and `stderr` buffers. -/
structure ProcObs where
  outcome : SelectOutcome
  stdout : String
  stderr : String
  deriving DecidableEq, Repr

/-- The effects the code performs on the operating system. -/
inductive Event where
  /-- `os.WriteFile(path, content, 0644)`. -/
  | writeFile (path : String) (content : String)
  /-- `os.Remove(path)`. -/
  | remove (path : String)
  /-- A command built by `exec.Command(name, args...)` is run with this
  standard input. -/
  | start (name : String) (args : List String) (stdin : String)
  /-- `cmd.Process.Kill()` on the command `name`. -/
  | kill (name : String)
  deriving DecidableEq, Repr

/-- What the compiler run delivers to `Execute`: the combined output, how the
run ended, and the time it took, in nanoseconds. -/
structure CompileRun where
  output : String
  finish : ProcessEnd
  elapsed : Nat := 0
  deriving DecidableEq, Repr

/-- Everything `Execute` reads from the outside world. -/
structure ExecEnv where
  /-- The value of `uuid.New().String()`. -/
  execution_id : String
  /-- The error of `os.WriteFile`, `none` when the file was written. -/
  writeErr : Option String
  /-- The result of `compile_cmd.CombinedOutput()`. -/
  compile : CompileRun
  /-- What the run of the binary for the test case at loop index `i`
  delivers. -/
  run : Nat → ProcObs

/-! ## `services/execution_service.go` -/

/-- The constant `EXECUTION_TIMEOUT`. -/
def EXECUTION_TIMEOUT : Nat := 2 * Second

/-- The constant `COMPILE_TIMEOUT`. -/
def COMPILE_TIMEOUT : Nat := 10 * Second

/-- The Go method `ExecutionService.runTestCase`, with the observation of the
process as an argument; it returns the result and the events performed. -/
def runTestCase (binary_file : String) (test_case : TestCase) (case_number : Int)
    (obs : ProcObs) : ExecutionResult × List Event :=
  let result : ExecutionResult :=
    { CaseNumber := case_number
      Input := test_case.Input
      ExpectedOutput := test_case.ExpectedOutput
      ActualOutput := ""
      Passed := false
      Error := "" }
  let started := [Event.start binary_file [] test_case.Input]
  match obs.outcome with
  | .done e =>
    if e.err then
      ({ result with Error := "Runtime error: " ++ obs.stderr, Passed := false }, started)
    else
      let actual_output := TrimSpace obs.stdout
      let expected_output := TrimSpace test_case.ExpectedOutput
      let result := { result with ActualOutput := actual_output }
      if expected_output = "" then
        ({ result with Passed := true }, started)
      else
        ({ result with Passed := actual_output == expected_output }, started)
  | .timeout =>
    ({ result with Error := "Execution timeout (2s limit exceeded)", Passed := false },
      started ++ [Event.kill binary_file])

/-- The loop `for i, test_case := range test_cases` of `Execute`: `i` is the
loop index, `results` the slice built so far, `tr` the events so far. -/
def runCases (env : ExecEnv) (binary_file : String) :
    List TestCase → Nat → List ExecutionResult → List Event →
      List ExecutionResult × List Event
  | [], _, results, tr => (results, tr)
  | test_case :: rest, i, results, tr =>
    let r := runTestCase binary_file test_case ((i : Int) + 1) (env.run i)
    runCases env binary_file rest (i + 1) (results ++ [r.1]) (tr ++ r.2)

/-- The Go method `ExecutionService.Execute`: the pair `(results, err)` it
returns, and the events performed. The two deferred removals run last, the
binary first. -/
def Execute (env : ExecEnv) (code : String) (test_cases : List TestCase) :
    (List ExecutionResult × Option String) × List Event :=
  let execution_id := env.execution_id
  let source_file := "/tmp/temp_" ++ execution_id ++ ".cpp"
  let binary_file := "/tmp/bin_" ++ execution_id
  let written := [Event.writeFile source_file code]
  match env.writeErr with
  | some err => (([], some ("failed to write source file: " ++ err)), written)
  | none =>
    let deferred := [Event.remove binary_file, Event.remove source_file]
    let compiled := written ++ [Event.start "g++" ["-O3", source_file, "-o", binary_file] ""]
    if env.compile.finish.err then
      (([], some ("compilation failed: " ++ env.compile.output)), compiled ++ deferred)
    else
      let r := runCases env binary_file test_cases 0 [] compiled
      ((r.1, none), r.2 ++ deferred)

/-- The Go method `ExecutionService.ValidateCode`. -/
def ValidateCode (code : String) : Option String :=
  if TrimSpace code = "" then
    some "code cannot be empty"
  else if !Contains code "int main" then
    some "code must contain a main function"
  else
    none

/-- Line 33 of `Execute`: `fmt.Sprintf("/tmp/temp_%s.cpp", execution_id)`. -/
def source_file (execution_id : String) : String :=
  "/tmp/temp_" ++ execution_id ++ ".cpp"

/-- Line 34 of `Execute`: `fmt.Sprintf("/tmp/bin_%s", execution_id)`. -/
def binary_file (execution_id : String) : String :=
  "/tmp/bin_" ++ execution_id

/-! ## The files -/

/-- The paths that exist. -/
abbrev Files := String → Bool

/-- The effect of an event on the files. After `os.Remove(path)` the path does
not exist and every other path is as before. What the other events do to the
files (writing the source, a compiler run, a run of the binary) is given by
`other`. -/
def Event.apply (other : Event → Files → Files) : Event → Files → Files
  | Event.remove path, files => fun p => if p = path then false else files p
  | e, files => other e files

/-- The files after a list of events, performed in order. -/
def applyEvents (other : Event → Files → Files) (events : List Event) (files : Files) : Files :=
  events.foldl (fun fs e => Event.apply other e fs) files

/-- Whether an event is a call of `os.Remove`. -/
def Event.isRemove : Event → Bool
  | Event.remove _ => true
  | _ => false

/-! ## `utils/string_utils.go` -/

/-- The body of the loop of `Slugify`: what one rune `char` of the input adds
to `result`. -/
def slugifyAppend (result : String) (char : Char) : String :=
  if ('a' ≤ char ∧ char ≤ 'z') ∨ ('0' ≤ char ∧ char ≤ '9') ∨ char = '-' ∨ char = '_' then
    result ++ String.singleton char
  else if 'A' ≤ char ∧ char ≤ 'Z' then
    result ++ String.singleton (Char.ofNat (char.toNat + 32))
  else if char = ' ' then
    result ++ "-"
  else
    result

/-- The Go function `utils.Slugify`: the loop over the runes of `s`, starting
from the empty result. -/
def Slugify (s : String) : String :=
  s.data.foldl slugifyAppend ""

/-- What a slug keeps of one character, in the words of the description: a
lowercase ASCII letter, a digit, `-` and `_` are kept, an uppercase ASCII
letter becomes its lowercase form, a space becomes `-`, and every other
character is dropped. -/
def slugChar (c : Char) : Option Char :=
  if c.isLower || c.isDigit || c == '-' || c == '_' then some c
  else if c.isUpper then some c.toLower
  else if c == ' ' then some '-'
  else none

/-- The Go function `utils.ExtractJSON`; the warning it logs is not
modelled. -/
def ExtractJSON (content : String) : String :=
  let trimmed := TrimSpace content
  let content :=
    if !HasPrefix trimmed "\x7b" then
      if Contains content "```json" then
        let parts := Split content "```json"
        let content := if parts.length > 1 then parts.getD 1 "" else content
        if Contains content "```" then
          let parts := Split content "```"
          parts.getD 0 ""
        else content
      else if Contains content "```" then
        let parts := Split content "```"
        if parts.length > 1 then parts.getD 1 "" else content
      else content
    else content
  let content := TrimSpace content
  let start := Index content "\x7b"
  let end_ := LastIndex content "\x7d"
  if start != -1 && end_ != -1 && end_ > start then
    slice content start (end_ + 1)
  else
    content

/-- Lines 54-62 of `ExtractJSON`: the text from the first opening brace to the
last closing brace of `content`, when both are found in that order, and
`content` itself otherwise. -/
def cutBraces (content : String) : String :=
  let start := Index content "\x7b"
  let end_ := LastIndex content "\x7d"
  if start != -1 && end_ != -1 && end_ > start then
    slice content start (end_ + 1)
  else
    content

/-- Go `strings.TrimLeft(s, cutset)`: the leading runes that are in `cutset`
removed. -/
def TrimLeft (s cutset : String) : String :=
  String.mk (s.data.dropWhile (fun c => cutset.data.contains c))

/-- Go `strings.HasSuffix`. -/
def HasSuffix (s suffix : String) : Bool :=
  startsWith s.data.reverse suffix.data.reverse

/-- Go `strings.Join`. -/
def Join : List String → String → String
  | [], _ => ""
  | [a], _ => a
  | a :: b :: rest, sep => a ++ sep ++ Join (b :: rest) sep

/-- Whether Go `strings.EqualFold` takes the runes `sr` and `tr` for equal,
when one of them is ASCII: they are the same rune, or the two cases of an
ASCII letter, or `K`/`k` and the Kelvin sign U+212A, or `S`/`s` and the long s
U+017F (the only runes outside ASCII that Unicode simple case folding puts
with an ASCII letter). For two runes outside ASCII only equality is
modelled; the code never compares two such runes, as its second text is
always one of the ASCII header names. -/
def foldEq (sr tr : Char) : Bool :=
  let lo := min sr.toNat tr.toNat
  let hi := max sr.toNat tr.toNat
  sr == tr ||
    (if hi < 128 then decide (65 ≤ lo ∧ lo ≤ 90 ∧ hi = lo + 32)
     else ((lo == 75 || lo == 107) && hi == 0x212A) || ((lo == 83 || lo == 115) && hi == 0x17F))

/-- Go `strings.EqualFold` on the runes of its two texts: the texts have the
same number of runes and the runes at the same position are equal under case
folding. -/
def equalFoldRunes : List Char → List Char → Bool
  | [], [] => true
  | sr :: s, tr :: t => foldEq sr tr && equalFoldRunes s t
  | _, _ => false

/-- The runes that Go decodes from `s[:n]`, the first `n` bytes of `s`: the
characters that lie within these bytes and, when the cut falls inside a
character, one U+FFFD for each byte of it before the cut. -/
def runesOfBytes : List Char → Nat → List Char
  | [], _ => []
  | _ :: _, 0 => []
  | c :: s, n + 1 =>
    if c.utf8Size ≤ n + 1 then c :: runesOfBytes s (n + 1 - c.utf8Size)
    else List.replicate (n + 1) (Char.ofNat 0xFFFD)

/-- The Go function `utils.StringStartsWithIgnoreCase`, for a `pre` of ASCII
characters: `len` counts bytes, and `s[:len(pre)]` is cut at that byte. -/
def StringStartsWithIgnoreCase (s pre : String) : Bool :=
  if s.utf8ByteSize < pre.utf8ByteSize then false
  else equalFoldRunes (runesOfBytes s.data pre.utf8ByteSize) pre.data

/-- The slice `headers` of `FormatMarkdownDescription`. -/
def headers : List String :=
  ["Problem Description", "Input Format", "Output Format", "Constraints", "Example",
    "Explanation", "Sample Input", "Sample Output", "Solution Hints"]

/-- The loop over `headers` of `FormatMarkdownDescription` for one line: the
line that is appended when a header is recognised (`isHeader` is set and the
loop is left), `none` when the loop ends with `isHeader` false. -/
def headerLoop (line trimmed cleanLine : String) : List String → Option String
  | [] => none
  | header :: rest =>
    if StringStartsWithIgnoreCase cleanLine header then
      if HasPrefix trimmed "#" then some line
      else if decide (cleanLine.utf8ByteSize < header.utf8ByteSize + 3)
          || HasSuffix cleanLine ":" then some ("## " ++ header)
      else headerLoop line trimmed cleanLine rest
    else headerLoop line trimmed cleanLine rest

/-- The body of the loop over the lines of `FormatMarkdownDescription`: the
line that is appended to `formattedLines` for `line`. -/
def formatLine (line : String) : String :=
  let trimmed := TrimSpace line
  let cleanLine := TrimLeft trimmed "*_# "
  match headerLoop line trimmed cleanLine headers with
  | some formatted => formatted
  | none => line

/-- The Go function `utils.FormatMarkdownDescription`. -/
def FormatMarkdownDescription (description : String) : String :=
  Join ((Split description "\n").map formatLine) "\n"

/-! ## `services/platform_stats_service.go` -/

/-- The Go struct `services.SkillLevel`. -/
structure SkillLevel where
  Level : String
  ProblemCount : Int
  Tag : String
  deriving DecidableEq, Repr

/-- The Go struct `services.LeetCodeStats`; the map `Skills` is the list of its
entries, in the order in which the loop over the map visits them. -/
structure LeetCodeStats where
  Username : String
  Ranking : Int
  TotalSolved : Int
  EasySolved : Int
  MediumSolved : Int
  HardSolved : Int
  Skills : List (String × SkillLevel)
  deriving DecidableEq, Repr

/-- The Go struct `services.CodeforcesStats`; the map `Tags` is the list of its
entries, in the order in which the loop over the map visits them. -/
structure CodeforcesStats where
  Username : String
  Rating : Int
  MaxRating : Int
  Rank : String
  MaxRank : String
  ProblemsSolved : Int
  Tags : List (String × Int)
  deriving DecidableEq, Repr

/-- The value of a Go `int` (64 bits, two's complement) that holds the
mathematical integer `x`. -/
def wrapInt (x : Int) : Int :=
  (x + 9223372036854775808) % 18446744073709551616 - 9223372036854775808

/-- The Go statement `m[key] += delta` on a `map[string]int`, the map being the
list of its entries: the entry of `key` is increased, or added with the value
`delta` when there is none. -/
def mapAdd : List (String × Int) → String → Int → List (String × Int)
  | [], key, delta => [(key, wrapInt (0 + delta))]
  | (k, v) :: rest, key, delta =>
    if k = key then (k, wrapInt (v + delta)) :: rest else (k, v) :: mapAdd rest key delta

/-- The Go expression `m[key]` on a `map[string]int`: the value of the entry of
`key`, or 0 when there is none. -/
def mapGet : List (String × Int) → String → Int
  | [], _ => 0
  | (k, v) :: rest, key => if k = key then v else mapGet rest key

/-- The Go function `normalizeTag`: `strings.ReplaceAll(tag, " ", "-")` puts a
`-` for every space, and `strings.ToLower` applies `unicode.ToLower`, here the
parameter `lower`, to every rune. -/
def normalizeTag (lower : Char → Char) (tag : String) : String :=
  String.mk ((tag.data.map (fun c => if c = ' ' then '-' else c)).map lower)

/-- The map `focusAreaMapping` of `GenerateSuggestedAreas`. -/
def focusAreaMapping : List (String × String) :=
  [ ("dynamic-programming", "dynamic-programming"),
    ("dp", "dynamic-programming"),
    ("greedy", "greedy"),
    ("graph", "graphs"),
    ("graphs", "graphs"),
    ("tree", "trees"),
    ("trees", "trees"),
    ("array", "arrays-strings"),
    ("string", "arrays-strings"),
    ("sorting", "sorting-searching"),
    ("binary-search", "sorting-searching"),
    ("backtracking", "backtracking"),
    ("bit-manipulation", "bit-manipulation"),
    ("math", "mathematics"),
    ("number-theory", "mathematics"),
    ("sliding-window", "sliding-window") ]

/-- The slice `allAreas` of `GenerateSuggestedAreas`. -/
def allAreas : List String :=
  ["dynamic-programming", "greedy", "graphs", "trees", "arrays-strings",
    "sorting-searching", "backtracking", "bit-manipulation", "mathematics", "sliding-window"]

/-- The loop over `allAreas` of `GenerateSuggestedAreas`: an area whose score
is below 50 is appended to `suggestions`, and the loop stops when there are
three. -/
def suggestLoop (areaScores : List (String × Int)) : List String → List String → List String
  | [], suggestions => suggestions
  | area :: rest, suggestions =>
    let score := mapGet areaScores area
    if score < 50 then
      let suggestions := suggestions ++ [area]
      if suggestions.length ≥ 3 then suggestions
      else suggestLoop areaScores rest suggestions
    else suggestLoop areaScores rest suggestions

/-- The Go function `GenerateSuggestedAreas`. `lower` is `unicode.ToLower`, and
`order` gives the order in which the loop over the map `tagCounts` visits its
entries. A stats pointer that is `nil` is `none`. -/
def GenerateSuggestedAreas (lower : Char → Char)
    (order : List (String × Int) → List (String × Int))
    (leetcodeStats : Option LeetCodeStats) (codeforcesStats : Option CodeforcesStats) :
    List String :=
  let tagCounts : List (String × Int) := []
  let tagCounts :=
    match leetcodeStats with
    | some stats =>
      stats.Skills.foldl
        (fun counts entry => mapAdd counts (normalizeTag lower entry.1) entry.2.ProblemCount)
        tagCounts
    | none => tagCounts
  let tagCounts :=
    match codeforcesStats with
    | some stats =>
      stats.Tags.foldl (fun counts entry => mapAdd counts (normalizeTag lower entry.1) entry.2)
        tagCounts
    | none => tagCounts
  let areaScores : List (String × Int) :=
    (order tagCounts).foldl
      (fun scores entry =>
        match focusAreaMapping.lookup entry.1 with
        | some area => mapAdd scores area entry.2
        | none => scores)
      []
  suggestLoop areaScores allAreas []

/-- The tags of both platforms with their problem counts: the skills of the
LeetCode stats, then the tags of the Codeforces stats, none for absent
stats. -/
def platformTags (leetcodeStats : Option LeetCodeStats)
    (codeforcesStats : Option CodeforcesStats) : List (String × Int) :=
  (match leetcodeStats with
    | some stats => stats.Skills.map (fun entry => (entry.1, entry.2.ProblemCount))
    | none => [])
  ++ (match codeforcesStats with
    | some stats => stats.Tags
    | none => [])

/-- The sum of the problem counts of the tags that map to `area` after
normalisation. -/
def tagSum (lower : Char → Char) (tags : List (String × Int)) (area : String) : Int :=
  ((tags.filter
    (fun entry => focusAreaMapping.lookup (normalizeTag lower entry.1) == some area)).map
    (fun entry => entry.2)).sum

/-- The sum of the values of the entries of a map whose key is mapped to
`area` by `focusAreaMapping`. -/
def mappedSum (m : List (String × Int)) (area : String) : Int :=
  ((m.filter (fun entry => focusAreaMapping.lookup entry.1 == some area)).map
    (fun entry => entry.2)).sum

/-- The score of an area, in the words of the description: the sum, over both
platforms, of the problem counts of all tags that map to the area after
normalisation. It is the sum of integers, which no bound limits; the value
that the program holds in its Go `int` is `wrapInt` of it. -/
def areaScore (lower : Char → Char) (leetcodeStats : Option LeetCodeStats)
    (codeforcesStats : Option CodeforcesStats) (area : String) : Int :=
  tagSum lower (platformTags leetcodeStats codeforcesStats) area

/-- Sample LeetCode stats: many dynamic programming and array problems, written
with capitals and spaces. -/
def sampleLeetCode : LeetCodeStats :=
  { Username := "ada", Ranking := 1200, TotalSolved := 180, EasySolved := 80
    MediumSolved := 80, HardSolved := 20
    Skills :=
      [ ("Dynamic Programming", { Level := "Advanced", ProblemCount := 40, Tag := "dp" }),
        ("Array", { Level := "Fundamental", ProblemCount := 70, Tag := "array" }),
        ("Greedy", { Level := "Intermediate", ProblemCount := 10, Tag := "greedy" }) ] }

/-- Sample Codeforces stats: more dynamic programming, greedy and graphs. -/
def sampleCodeforces : CodeforcesStats :=
  { Username := "ada", Rating := 1500, MaxRating := 1600, Rank := "specialist"
    MaxRank := "expert", ProblemsSolved := 120
    Tags := [("dp", 15), ("greedy", 45), ("graphs", 20)] }

/-- LeetCode stats with the largest problem count that a Go `int` holds, under
the tag `DP`. -/
def overflowLeetCode : LeetCodeStats :=
  { Username := "ada", Ranking := 1, TotalSolved := 0, EasySolved := 0
    MediumSolved := 0, HardSolved := 0
    Skills :=
      [ ("DP", { Level := "Advanced", ProblemCount := 9223372036854775807, Tag := "dp" }) ] }

/-- Codeforces stats with one problem under the tag `dynamic programming`. -/
def overflowCodeforces : CodeforcesStats :=
  { Username := "ada", Rating := 1500, MaxRating := 1600, Rank := "specialist"
    MaxRank := "expert", ProblemsSolved := 1
    Tags := [("dynamic programming", 1)] }

/-! ## `handlers/execution_handler.go` -/

/-- What the handler sends back: `c.JSON(status, gin.H{"error": msg})`, or
`c.JSON(http.StatusOK, response)`. -/
inductive Response where
  | error (status : Nat) (msg : String)
  | ok (response : ExecutionResponse)
  deriving DecidableEq, Repr

/-- Everything `ExecuteCode` reads from the outside world. -/
structure HandlerEnv where
  /-- The request body decoded as JSON into an `ExecutionRequest`, `none` when
  it is not well-formed. -/
  body : Option ExecutionRequest
  /-- The result of `services.LoadMockProblem()`, `none` on error. -/
  mock : Option ProblemGenerationResponse
  /-- The result of `database.DB.First(&problem, "id = ?", id)`, `none` on
  error. -/
  db : String → Option Problem
  /-- The environment of the call of `Execute`. -/
  exec : ExecEnv

/-- The call `c.ShouldBindJSON(&request)` of gin: it fails when the body does
not decode or when a field tagged `binding:"required"` (`Code`, `ProblemID`)
has its zero value, the empty string. -/
def ShouldBindJSON (body : Option ExecutionRequest) : Option ExecutionRequest :=
  match body with
  | none => none
  | some request =>
    if request.Code = "" ∨ request.ProblemID = "" then none else some request

/-- Lines 24-59 of `ExecuteCode`: the problem is the mock problem, the empty
playground problem, or the one stored under the request's id; on failure the
response that is sent. -/
def getProblem (env : HandlerEnv) (request : ExecutionRequest) : Except Response Problem :=
  if request.ProblemID = "testing" then
    match env.mock with
    | none => .error (Response.error 500 "Failed to load mock problem")
    | some mock_problem =>
      .ok { Title := mock_problem.Title
            SampleCases := mock_problem.SampleCases
            HiddenCases := mock_problem.HiddenCases }
  else if request.ProblemID = "playground" then
    .ok { Title := "Playground", SampleCases := [], HiddenCases := [] }
  else
    match env.db request.ProblemID with
    | none => .error (Response.error 404 "Problem not found")
    | some problem => .ok problem

/-- Lines 72-85 of `ExecuteCode`: the test cases that are run. -/
def allCases (problem : Problem) (request : ExecutionRequest) : List TestCase :=
  if request.Mode = "submit" then
    problem.SampleCases ++ problem.HiddenCases
  else if request.CustomCases.length > 0 then
    problem.SampleCases ++ request.CustomCases
  else
    problem.SampleCases

/-- Lines 98-104 of `ExecuteCode`: the loop that counts the passed results. -/
def totalPassed (results : List ExecutionResult) : Int :=
  results.foldl (fun total_passed result => if result.Passed then total_passed + 1 else total_passed) 0

/-- Lines 106-111 of `ExecuteCode`: the response that is built from the
results. -/
def buildResponse (results : List ExecutionResult) : ExecutionResponse :=
  let total_passed := totalPassed results
  { Success := total_passed == (results.length : Int)
    Results := results
    TotalPassed := total_passed
    TotalCases := (results.length : Int) }

/-- The Go handler `ExecuteCode`: the response it sends and the events
performed. -/
def ExecuteCode (env : HandlerEnv) : Response × List Event :=
  match ShouldBindJSON env.body with
  | none => (Response.error 400 "Invalid request format", [])
  | some request =>
    match getProblem env request with
    | .error response => (response, [])
    | .ok problem =>
      match ValidateCode request.Code with
      | some err => (Response.error 400 err, [])
      | none =>
        let all_cases := allCases problem request
        let r := Execute env.exec request.Code all_cases
        match r.1.2 with
        | some err => (Response.error 400 err, r.2)
        | none => (Response.ok (buildResponse r.1.1), r.2)

/-- Whether an event is the start of the command `name`. -/
def Event.isStartOf (name : String) : Event → Bool
  | Event.start n _ _ => n == name
  | _ => false

/-! ## Sample environments -/

/-- A run of the binary that exits with status 0 having printed `out`. -/
def exitsZero (out : String) : ProcObs :=
  { outcome := SelectOutcome.done (ProcessEnd.exited 0), stdout := out, stderr := "" }

/-- An environment in which the source is written and compiled, the first run
of the binary prints `4`, the second crashes with status 139 and every later
one is still running when the timer fires. -/
def sampleEnv : ExecEnv :=
  { execution_id := "6f1c"
    writeErr := none
    compile := { output := "", finish := ProcessEnd.exited 0 }
    run := fun i =>
      if i = 0 then exitsZero "4\n"
      else if i = 1 then
        { outcome := SelectOutcome.done (ProcessEnd.exited 139)
          stdout := "partial", stderr := "Segmentation fault" }
      else { outcome := SelectOutcome.timeout, stdout := "", stderr := "" } }

/-- An environment in which the compiler exits with status 1 after printing a
diagnostic. -/
def brokenEnv : ExecEnv :=
  { execution_id := "6f1c"
    writeErr := none
    compile := { output := "main.cpp:1:1: error: expected declaration", finish := ProcessEnd.exited 1 }
    run := fun _ => exitsZero "" }

/-- Three test cases for the sum of two numbers. -/
def sampleCases : List TestCase :=
  [ { Input := "2 2", ExpectedOutput := "4", Explanation := "" },
    { Input := "1 2", ExpectedOutput := "3", Explanation := "" },
    { Input := "5 5", ExpectedOutput := "10", Explanation := "" } ]

/-- A request in the playground with two custom cases, run in an environment
in which the source compiles and every run of the binary prints `4`: the first
case passes, the second fails on mismatched output. -/
def scenarioD : HandlerEnv :=
  { body := some
      { Code := "int main(){}"
        ProblemID := "playground"
        CustomCases := [⟨"2 2", "4", ""⟩, ⟨"1 2", "3", ""⟩]
        Mode := "run" }
    mock := none
    db := fun _ => none
    exec :=
      { execution_id := "6f1c"
        writeErr := none
        compile := { output := "", finish := ProcessEnd.exited 0 }
        run := fun _ => exitsZero "4\n" } }

/-- A request in the playground whose source does not compile, run in
`brokenEnv`. -/
def scenarioB : HandlerEnv :=
  { body := some
      { Code := "int main( {}", ProblemID := "playground", CustomCases := [], Mode := "run" }
    mock := none
    db := fun _ => none
    exec := brokenEnv }

/-- A request with the given source for the problem `problem_id`, where no
problem is stored and there is no mock problem. -/
def requestFor (code problem_id : String) : HandlerEnv :=
  { body := some { Code := code, ProblemID := problem_id, CustomCases := [], Mode := "run" }
    mock := none
    db := fun _ => none
    exec := sampleEnv }

/-- An environment in which the compiler takes 60 seconds and then exits with
status 0, and every run of the binary prints `4`. -/
def slowCompileEnv : ExecEnv :=
  { execution_id := "6f1c"
    writeErr := none
    compile := { output := "", finish := ProcessEnd.exited 0, elapsed := 60 * Second }
    run := fun _ => exitsZero "4\n" }

/-- A stored problem with one sample case and one hidden case. -/
def storedProblem : Problem :=
  { Title := "Sum"
    SampleCases := [⟨"2 2", "4", "two and two"⟩]
    HiddenCases := [⟨"5 5", "10", ""⟩] }

/-- A request for the stored problem `p1` in the given mode, with one custom
case, run in `sampleEnv`. -/
def requestInMode (mode : String) : HandlerEnv :=
  { body := some
      { Code := "int main()\x7b\x7d", ProblemID := "p1"
        CustomCases := [⟨"1 2", "3", ""⟩], Mode := mode }
    mock := none
    db := fun id => if id = "p1" then some storedProblem else none
    exec := sampleEnv }

/-- A sample of what the events other than removals do to the files: a write
creates the path written, a compiler run creates its output path (its last
argument), and nothing else changes. -/
def sampleEffects : Event → Files → Files
  | Event.writeFile path _, files => fun p => if p = path then true else files p
  | Event.start name args _, files =>
    if name = "g++" then fun p => decide (args.getLast? = some p) || files p else files
  | _, files => files

/-- The character `\x7b`, the opening brace. -/
def openBrace : Char := Char.ofNat 123

/-- The character `\x7d`, the closing brace. -/
def closeBrace : Char := Char.ofNat 125

/-- The backtick character. -/
def backtick : Char := Char.ofNat 96

/-! ## Properties of `runTestCase` -/

/-- Every branch of `runTestCase` leaves the three fields set at the start
unchanged. -/
theorem runTestCase_header (binary_file : String) (test_case : TestCase) (case_number : Int)
    (obs : ProcObs) :
    (runTestCase binary_file test_case case_number obs).1.CaseNumber = case_number ∧
    (runTestCase binary_file test_case case_number obs).1.Input = test_case.Input ∧
    (runTestCase binary_file test_case case_number obs).1.ExpectedOutput
      = test_case.ExpectedOutput := by
  unfold runTestCase
  cases obs.outcome with
  | timeout => simp
  | done e =>
    by_cases he : e.err = true
    · simp [he]
    · by_cases hx : TrimSpace test_case.ExpectedOutput = ""
      · simp [he, hx]
      · simp [he, hx]

/-- The error of `cmd.Run()` is `nil` exactly for exit status 0. -/
theorem ProcessEnd.err_eq_false_iff (e : ProcessEnd) :
    e.err = false ↔ e = ProcessEnd.exited 0 := by
  cases e with
  | startFailed => simp [ProcessEnd.err]
  | exited status => simp [ProcessEnd.err]

/-- C2: for a test case whose trimmed expected output is not empty, the case is
marked passed if and only if the process exited with status 0 before the timer
fired and the trimmed standard output is the trimmed expected output, as
strings. -/
theorem runTestCase_passed_iff_match (binary_file : String) (test_case : TestCase)
    (case_number : Int) (obs : ProcObs)
    (h : TrimSpace test_case.ExpectedOutput ≠ "") :
    (runTestCase binary_file test_case case_number obs).1.Passed = true ↔
      (obs.outcome = SelectOutcome.done (ProcessEnd.exited 0) ∧
        TrimSpace obs.stdout = TrimSpace test_case.ExpectedOutput) := by
  unfold runTestCase
  cases ho : obs.outcome with
  | timeout => simp
  | done e =>
    by_cases he : e.err = true
    · have hne : e ≠ ProcessEnd.exited 0 := by
        intro h0
        rw [h0] at he
        simp [ProcessEnd.err] at he
      simp [he, hne]
    · have h0 : e = ProcessEnd.exited 0 :=
        (ProcessEnd.err_eq_false_iff e).mp (by simpa using he)
      subst h0
      simp [ProcessEnd.err, h]

/-- C3: for a test case whose trimmed expected output is empty, the case is
marked passed if and only if the process exited with status 0 before the timer
fired, whatever was printed. -/
theorem runTestCase_passed_iff_exit_zero (binary_file : String) (test_case : TestCase)
    (case_number : Int) (obs : ProcObs)
    (h : TrimSpace test_case.ExpectedOutput = "") :
    (runTestCase binary_file test_case case_number obs).1.Passed = true ↔
      obs.outcome = SelectOutcome.done (ProcessEnd.exited 0) := by
  unfold runTestCase
  cases ho : obs.outcome with
  | timeout => simp
  | done e =>
    by_cases he : e.err = true
    · have hne : e ≠ ProcessEnd.exited 0 := by
        intro h0
        rw [h0] at he
        simp [ProcessEnd.err] at he
      simp [he, hne]
    · have h0 : e = ProcessEnd.exited 0 :=
        (ProcessEnd.err_eq_false_iff e).mp (by simpa using he)
      subst h0
      simp [ProcessEnd.err, h]

/-- C4: when the timer fires before the process is done, the result is not
passed, its actual output is empty and its error is the timeout message, whose
limit is `EXECUTION_TIMEOUT` in seconds, 2. -/
theorem runTestCase_timeout (binary_file : String) (test_case : TestCase)
    (case_number : Int) (obs : ProcObs)
    (h : obs.outcome = SelectOutcome.timeout) :
    (runTestCase binary_file test_case case_number obs).1.Passed = false ∧
    (runTestCase binary_file test_case case_number obs).1.ActualOutput = "" ∧
    (runTestCase binary_file test_case case_number obs).1.Error
      = "Execution timeout (" ++ toString (EXECUTION_TIMEOUT / Second) ++ "s limit exceeded)" ∧
    EXECUTION_TIMEOUT / Second = 2 := by
  have hmsg : "Execution timeout (2s limit exceeded)"
      = "Execution timeout (" ++ toString (EXECUTION_TIMEOUT / Second) ++ "s limit exceeded)" := by
    decide
  unfold runTestCase
  rw [h]
  exact ⟨rfl, rfl, hmsg, by decide⟩

/-- C5: when the process exits with a status other than 0, or cannot be
started, the result is not passed and its error is `Runtime error: ` followed
by the captured standard error. -/
theorem runTestCase_runtime_error (binary_file : String) (test_case : TestCase)
    (case_number : Int) (obs : ProcObs)
    (h : obs.outcome = SelectOutcome.done ProcessEnd.startFailed ∨
      ∃ status : Int, status ≠ 0 ∧ obs.outcome = SelectOutcome.done (ProcessEnd.exited status)) :
    (runTestCase binary_file test_case case_number obs).1.Passed = false ∧
    (runTestCase binary_file test_case case_number obs).1.Error
      = "Runtime error: " ++ obs.stderr := by
  unfold runTestCase
  rcases h with h | ⟨status, hs, h⟩
  · rw [h]
    simp [ProcessEnd.err]
  · rw [h]
    simp [ProcessEnd.err, hs]

/-- A witness of C2: expected output `4`, printed `4` and a newline. -/
theorem runTestCase_passed_iff_match_witness :
    TrimSpace "4" ≠ "" ∧
    ((runTestCase "/tmp/bin_6f1c" ⟨"2 2", "4", ""⟩ 1 (exitsZero "4\n")).1.Passed = true ↔
      ((exitsZero "4\n").outcome = SelectOutcome.done (ProcessEnd.exited 0) ∧
        TrimSpace (exitsZero "4\n").stdout = TrimSpace "4")) :=
  ⟨by decide,
    runTestCase_passed_iff_match "/tmp/bin_6f1c" ⟨"2 2", "4", ""⟩ 1 (exitsZero "4\n") (by decide)⟩

/-- A witness of C3: expected output of blanks only, the process crashes. -/
theorem runTestCase_passed_iff_exit_zero_witness :
    TrimSpace " \n" = "" ∧
    ((runTestCase "/tmp/bin_6f1c" ⟨"2 2", " \n", ""⟩ 2 (sampleEnv.run 1)).1.Passed = true ↔
      (sampleEnv.run 1).outcome = SelectOutcome.done (ProcessEnd.exited 0)) :=
  ⟨by decide,
    runTestCase_passed_iff_exit_zero "/tmp/bin_6f1c" ⟨"2 2", " \n", ""⟩ 2 (sampleEnv.run 1)
      (by decide)⟩

/-- A witness of C4: the third run of `sampleEnv` times out. -/
theorem runTestCase_timeout_witness :
    (sampleEnv.run 2).outcome = SelectOutcome.timeout ∧
    (runTestCase "/tmp/bin_6f1c" ⟨"5 5", "10", ""⟩ 3 (sampleEnv.run 2)).1.Passed = false ∧
    (runTestCase "/tmp/bin_6f1c" ⟨"5 5", "10", ""⟩ 3 (sampleEnv.run 2)).1.ActualOutput = "" ∧
    (runTestCase "/tmp/bin_6f1c" ⟨"5 5", "10", ""⟩ 3 (sampleEnv.run 2)).1.Error
      = "Execution timeout (" ++ toString (EXECUTION_TIMEOUT / Second) ++ "s limit exceeded)" ∧
    EXECUTION_TIMEOUT / Second = 2 :=
  ⟨by decide,
    runTestCase_timeout "/tmp/bin_6f1c" ⟨"5 5", "10", ""⟩ 3 (sampleEnv.run 2) (by decide)⟩

/-- A witness of C5: the second run of `sampleEnv` exits with status 139. -/
theorem runTestCase_runtime_error_witness :
    ((139 : Int) ≠ 0 ∧
      (sampleEnv.run 1).outcome = SelectOutcome.done (ProcessEnd.exited 139)) ∧
    (runTestCase "/tmp/bin_6f1c" ⟨"1 2", "3", ""⟩ 2 (sampleEnv.run 1)).1.Passed = false ∧
    (runTestCase "/tmp/bin_6f1c" ⟨"1 2", "3", ""⟩ 2 (sampleEnv.run 1)).1.Error
      = "Runtime error: " ++ (sampleEnv.run 1).stderr :=
  ⟨⟨by decide, by decide⟩,
    runTestCase_runtime_error "/tmp/bin_6f1c" ⟨"1 2", "3", ""⟩ 2 (sampleEnv.run 1)
      (Or.inr ⟨139, by decide, by decide⟩)⟩

/-! ## Properties of `Execute` -/

/-- The results the loop of `Execute` adds are, in order, the results of
`runTestCase` for each test case, numbered from the loop index plus one. -/
theorem runCases_results (env : ExecEnv) (binary_file : String) :
    ∀ (test_cases : List TestCase) (i : Nat) (results : List ExecutionResult) (tr : List Event),
      (runCases env binary_file test_cases i results tr).1
        = results ++ (test_cases.enumFrom i).map
            (fun p => (runTestCase binary_file p.2 ((p.1 : Int) + 1) (env.run p.1)).1) := by
  intro test_cases
  induction test_cases with
  | nil => intro i results tr; simp [runCases]
  | cons test_case rest ih =>
    intro i results tr
    simp [runCases, ih, List.enumFrom_cons]

/-- The events the loop of `Execute` adds are, in order, the events of
`runTestCase` for each test case. -/
theorem runCases_events (env : ExecEnv) (binary_file : String) :
    ∀ (test_cases : List TestCase) (i : Nat) (results : List ExecutionResult) (tr : List Event),
      (runCases env binary_file test_cases i results tr).2
        = tr ++ ((test_cases.enumFrom i).map
            (fun p => (runTestCase binary_file p.2 ((p.1 : Int) + 1) (env.run p.1)).2)).flatten := by
  intro test_cases
  induction test_cases with
  | nil => intro i results tr; simp [runCases]
  | cons test_case rest ih =>
    intro i results tr
    simp [runCases, ih, List.enumFrom_cons]

/-- What `Execute` returns and does when the source file is written and the
compiler exits with status 0. -/
theorem Execute_of_compiled (env : ExecEnv) (code : String) (test_cases : List TestCase)
    (hw : env.writeErr = none) (hc : env.compile.finish = ProcessEnd.exited 0) :
    Execute env code test_cases =
      ((test_cases.enum.map (fun p =>
          (runTestCase ("/tmp/bin_" ++ env.execution_id) p.2 ((p.1 : Int) + 1) (env.run p.1)).1),
        none),
       [Event.writeFile ("/tmp/temp_" ++ env.execution_id ++ ".cpp") code,
        Event.start "g++"
          ["-O3", "/tmp/temp_" ++ env.execution_id ++ ".cpp", "-o", "/tmp/bin_" ++ env.execution_id]
          ""]
        ++ (test_cases.enum.map (fun p =>
          (runTestCase ("/tmp/bin_" ++ env.execution_id) p.2 ((p.1 : Int) + 1) (env.run p.1)).2)).flatten
        ++ [Event.remove ("/tmp/bin_" ++ env.execution_id),
            Event.remove ("/tmp/temp_" ++ env.execution_id ++ ".cpp")]) := by
  simp [Execute, hw, hc, ProcessEnd.err, runCases_results, runCases_events, List.enum]

/-- What `Execute` returns and does when the source file is written and the
compiler run ends with an error. -/
theorem Execute_of_compile_error (env : ExecEnv) (code : String) (test_cases : List TestCase)
    (hw : env.writeErr = none) (hc : env.compile.finish.err = true) :
    Execute env code test_cases =
      (([], some ("compilation failed: " ++ env.compile.output)),
       [Event.writeFile ("/tmp/temp_" ++ env.execution_id ++ ".cpp") code,
        Event.start "g++"
          ["-O3", "/tmp/temp_" ++ env.execution_id ++ ".cpp", "-o", "/tmp/bin_" ++ env.execution_id]
          "",
        Event.remove ("/tmp/bin_" ++ env.execution_id),
        Event.remove ("/tmp/temp_" ++ env.execution_id ++ ".cpp")]) := by
  simp [Execute, hw, hc]

/-- The result at index `i` when the source compiled. -/
theorem Execute_result_at (env : ExecEnv) (code : String) (test_cases : List TestCase)
    (hw : env.writeErr = none) (hc : env.compile.finish = ProcessEnd.exited 0)
    (i : Nat) (tc : TestCase) (hi : test_cases[i]? = some tc) :
    (Execute env code test_cases).1.1[i]?
      = some (runTestCase ("/tmp/bin_" ++ env.execution_id) tc ((i : Int) + 1) (env.run i)).1 := by
  rw [Execute_of_compiled env code test_cases hw hc]
  simp [List.getElem?_map, List.getElem?_enum, hi]

/-- C1: when the source file is written and compiles, `Execute` returns no
error and one result per test case in input order; the result at index `i` has
case number `i + 1` and the input and expected output of test case `i`. -/
theorem Execute_one_result_per_case (env : ExecEnv) (code : String)
    (test_cases : List TestCase)
    (hw : env.writeErr = none) (hc : env.compile.finish = ProcessEnd.exited 0) :
    (Execute env code test_cases).1.2 = none ∧
    (Execute env code test_cases).1.1.length = test_cases.length ∧
    ∀ (i : Nat) (tc : TestCase), test_cases[i]? = some tc →
      ∃ result, (Execute env code test_cases).1.1[i]? = some result ∧
        result.CaseNumber = (i : Int) + 1 ∧ result.Input = tc.Input ∧
        result.ExpectedOutput = tc.ExpectedOutput := by
  refine ⟨?_, ?_, ?_⟩
  · rw [Execute_of_compiled env code test_cases hw hc]
  · rw [Execute_of_compiled env code test_cases hw hc]
    simp [List.enum]
  · intro i tc hi
    exact ⟨_, Execute_result_at env code test_cases hw hc i tc hi,
      runTestCase_header _ tc _ _⟩

/-- A witness of C1: three test cases run in `sampleEnv`. -/
theorem Execute_one_result_per_case_witness :
    sampleEnv.writeErr = none ∧ sampleEnv.compile.finish = ProcessEnd.exited 0 ∧
    ((Execute sampleEnv "int main(){}" sampleCases).1.2 = none ∧
    (Execute sampleEnv "int main(){}" sampleCases).1.1.length = sampleCases.length ∧
    ∀ (i : Nat) (tc : TestCase), sampleCases[i]? = some tc →
      ∃ result, (Execute sampleEnv "int main(){}" sampleCases).1.1[i]? = some result ∧
        result.CaseNumber = (i : Int) + 1 ∧ result.Input = tc.Input ∧
        result.ExpectedOutput = tc.ExpectedOutput) :=
  ⟨rfl, rfl, Execute_one_result_per_case sampleEnv "int main(){}" sampleCases rfl rfl⟩

/-- The compiler is not the binary of any run. -/
theorem compiler_ne_binary (execution_id : String) : "g++" ≠ "/tmp/bin_" ++ execution_id := by
  intro h
  have hd := congrArg String.data h
  simp at hd

/-- Each call of `runTestCase` starts the binary exactly once, on the input of
its test case. -/
theorem runTestCase_starts (binary_file : String) (test_case : TestCase) (case_number : Int)
    (obs : ProcObs) :
    (runTestCase binary_file test_case case_number obs).2.filter (Event.isStartOf binary_file)
      = [Event.start binary_file [] test_case.Input] := by
  unfold runTestCase
  cases obs.outcome with
  | timeout => simp [Event.isStartOf, List.filter]
  | done e =>
    by_cases he : e.err = true
    · simp [he, Event.isStartOf, List.filter]
    · by_cases hx : TrimSpace test_case.ExpectedOutput = ""
      · simp [he, hx, Event.isStartOf, List.filter]
      · simp [he, hx, Event.isStartOf, List.filter]

/-- The starts of the binary among the events of the runs of a list of
numbered test cases are one per test case, in order. -/
theorem starts_of_runs (env : ExecEnv) (binary_file : String) (l : List (Nat × TestCase)) :
    ((l.map (fun p =>
        (runTestCase binary_file p.2 ((p.1 : Int) + 1) (env.run p.1)).2)).flatten).filter
        (Event.isStartOf binary_file)
      = (l.map Prod.snd).map (fun tc => Event.start binary_file [] tc.Input) := by
  induction l with
  | nil => simp
  | cons p rest ih =>
    simp only [List.map_cons, List.flatten_cons, List.filter_append, ih, runTestCase_starts]
    simp

/-- C6: when the source file is written and compiles, whatever the outcomes of
the runs are, the binary is started once for every test case, in input order
and on that case's input; the result at index `i` is the result of
`runTestCase` for test case `i` with number `i + 1` and the outcome of that
run; and it is the same in every environment that agrees on that run. -/
theorem Execute_never_short_circuits (env : ExecEnv) (code : String)
    (test_cases : List TestCase)
    (hw : env.writeErr = none) (hc : env.compile.finish = ProcessEnd.exited 0) :
    (Execute env code test_cases).1.1.length = test_cases.length ∧
    (Execute env code test_cases).2.filter (Event.isStartOf ("/tmp/bin_" ++ env.execution_id))
      = test_cases.map (fun tc => Event.start ("/tmp/bin_" ++ env.execution_id) [] tc.Input) ∧
    (∀ (i : Nat) (tc : TestCase), test_cases[i]? = some tc →
      (Execute env code test_cases).1.1[i]?
        = some (runTestCase ("/tmp/bin_" ++ env.execution_id) tc ((i : Int) + 1) (env.run i)).1) ∧
    (∀ (other : ExecEnv) (i : Nat), other.execution_id = env.execution_id →
      other.writeErr = none → other.compile.finish = ProcessEnd.exited 0 →
      other.run i = env.run i →
      (Execute other code test_cases).1.1[i]? = (Execute env code test_cases).1.1[i]?) := by
  refine ⟨?_, ?_, ?_, ?_⟩
  · rw [Execute_of_compiled env code test_cases hw hc]
    simp [List.enum]
  · rw [Execute_of_compiled env code test_cases hw hc]
    have hg : ("g++" == "/tmp/bin_" ++ env.execution_id) = false :=
      beq_eq_false_iff_ne.mpr (compiler_ne_binary env.execution_id)
    simp only [List.filter_append, starts_of_runs, List.enum_map_snd]
    simp [List.filter, Event.isStartOf, hg]
  · intro i tc hi
    exact Execute_result_at env code test_cases hw hc i tc hi
  · intro other i hid how hoc hrun
    cases hi : test_cases[i]? with
    | none =>
      have hlen : test_cases.length ≤ i := by
        simpa [List.getElem?_eq_none_iff] using hi
      have h1 : (Execute other code test_cases).1.1.length = test_cases.length := by
        rw [Execute_of_compiled other code test_cases how hoc]
        simp [List.enum]
      have h2 : (Execute env code test_cases).1.1.length = test_cases.length := by
        rw [Execute_of_compiled env code test_cases hw hc]
        simp [List.enum]
      rw [List.getElem?_eq_none (by omega), List.getElem?_eq_none (by omega)]
    | some tc =>
      rw [Execute_result_at other code test_cases how hoc i tc hi,
        Execute_result_at env code test_cases hw hc i tc hi, hid, hrun]

/-- A witness of C6: in `sampleEnv` the second run crashes and the third times
out. -/
theorem Execute_never_short_circuits_witness :
    sampleEnv.writeErr = none ∧ sampleEnv.compile.finish = ProcessEnd.exited 0 ∧
    ((Execute sampleEnv "int main(){}" sampleCases).1.1.length = sampleCases.length ∧
    (Execute sampleEnv "int main(){}" sampleCases).2.filter
        (Event.isStartOf ("/tmp/bin_" ++ sampleEnv.execution_id))
      = sampleCases.map
          (fun tc => Event.start ("/tmp/bin_" ++ sampleEnv.execution_id) [] tc.Input) ∧
    (∀ (i : Nat) (tc : TestCase), sampleCases[i]? = some tc →
      (Execute sampleEnv "int main(){}" sampleCases).1.1[i]?
        = some (runTestCase ("/tmp/bin_" ++ sampleEnv.execution_id) tc ((i : Int) + 1)
            (sampleEnv.run i)).1) ∧
    (∀ (other : ExecEnv) (i : Nat), other.execution_id = sampleEnv.execution_id →
      other.writeErr = none → other.compile.finish = ProcessEnd.exited 0 →
      other.run i = sampleEnv.run i →
      (Execute other "int main(){}" sampleCases).1.1[i]?
        = (Execute sampleEnv "int main(){}" sampleCases).1.1[i]?)) :=
  ⟨rfl, rfl, Execute_never_short_circuits sampleEnv "int main(){}" sampleCases rfl rfl⟩

/-- C7: when the compiler cannot be started or exits with a status other than
0, `Execute` returns an error and no result, and the only events are the write
of the source file, the compiler run and the two removals: the binary is
never started. -/
theorem Execute_compile_failure (env : ExecEnv) (code : String) (test_cases : List TestCase)
    (hw : env.writeErr = none)
    (hc : env.compile.finish = ProcessEnd.startFailed ∨
      ∃ status : Int, status ≠ 0 ∧ env.compile.finish = ProcessEnd.exited status) :
    (Execute env code test_cases).1.1 = [] ∧
    (∃ msg, (Execute env code test_cases).1.2 = some msg) ∧
    (Execute env code test_cases).2
      = [Event.writeFile ("/tmp/temp_" ++ env.execution_id ++ ".cpp") code,
         Event.start "g++"
          ["-O3", "/tmp/temp_" ++ env.execution_id ++ ".cpp", "-o", "/tmp/bin_" ++ env.execution_id]
          "",
         Event.remove ("/tmp/bin_" ++ env.execution_id),
         Event.remove ("/tmp/temp_" ++ env.execution_id ++ ".cpp")] ∧
    (Execute env code test_cases).2.filter (Event.isStartOf ("/tmp/bin_" ++ env.execution_id))
      = [] := by
  have herr : env.compile.finish.err = true := by
    rcases hc with h | ⟨status, hs, h⟩
    · rw [h]; rfl
    · rw [h]; simp [ProcessEnd.err, hs]
  have hg : ("g++" == "/tmp/bin_" ++ env.execution_id) = false :=
    beq_eq_false_iff_ne.mpr (compiler_ne_binary env.execution_id)
  rw [Execute_of_compile_error env code test_cases hw herr]
  refine ⟨rfl, ⟨_, rfl⟩, rfl, ?_⟩
  simp [List.filter, Event.isStartOf, hg]

/-- A witness of C7: in `brokenEnv` the compiler exits with status 1. -/
theorem Execute_compile_failure_witness :
    brokenEnv.writeErr = none ∧
    ((1 : Int) ≠ 0 ∧ brokenEnv.compile.finish = ProcessEnd.exited 1) ∧
    ((Execute brokenEnv "int main( {}" sampleCases).1.1 = [] ∧
    (∃ msg, (Execute brokenEnv "int main( {}" sampleCases).1.2 = some msg) ∧
    (Execute brokenEnv "int main( {}" sampleCases).2
      = [Event.writeFile ("/tmp/temp_" ++ brokenEnv.execution_id ++ ".cpp") "int main( {}",
         Event.start "g++"
          ["-O3", "/tmp/temp_" ++ brokenEnv.execution_id ++ ".cpp", "-o",
            "/tmp/bin_" ++ brokenEnv.execution_id]
          "",
         Event.remove ("/tmp/bin_" ++ brokenEnv.execution_id),
         Event.remove ("/tmp/temp_" ++ brokenEnv.execution_id ++ ".cpp")] ∧
    (Execute brokenEnv "int main( {}" sampleCases).2.filter
        (Event.isStartOf ("/tmp/bin_" ++ brokenEnv.execution_id))
      = []) :=
  ⟨rfl, ⟨by decide, rfl⟩,
    Execute_compile_failure brokenEnv "int main( {}" sampleCases rfl
      (Or.inr ⟨1, by decide, rfl⟩)⟩

/-! ## Properties of `ExecuteCode` -/

/-- Counterexample to C8: the compiler prints a diagnostic and exits with
status 1; the error of `Execute`, and the error the handler sends, is the
diagnostic with `compilation failed: ` in front, not the diagnostic itself. -/
theorem compile_error_not_verbatim :
    brokenEnv.compile.finish = ProcessEnd.exited 1 ∧
    (Execute brokenEnv "int main( {}" []).1.2
      = some "compilation failed: main.cpp:1:1: error: expected declaration" ∧
    (Execute brokenEnv "int main( {}" []).1.2 ≠ some brokenEnv.compile.output ∧
    (ExecuteCode scenarioB).1
      = Response.error 400 "compilation failed: main.cpp:1:1: error: expected declaration" ∧
    (ExecuteCode scenarioB).1 ≠ Response.error 400 scenarioB.exec.compile.output := by
  decide

/-- C8, amended: on a non-zero compiler exit the error of `Execute` is
`compilation failed: ` followed by the compiler's combined output, unchanged,
and a request that reaches `Execute` is answered with status 400 and that
message as its error. -/
theorem Execute_compile_error_message (env : HandlerEnv) (request : ExecutionRequest)
    (problem : Problem) (status : Int)
    (hb : ShouldBindJSON env.body = some request)
    (hp : getProblem env request = Except.ok problem)
    (hv : ValidateCode request.Code = none)
    (hw : env.exec.writeErr = none)
    (hs : status ≠ 0) (hc : env.exec.compile.finish = ProcessEnd.exited status) :
    (∀ (code : String) (test_cases : List TestCase),
      (Execute env.exec code test_cases).1.2
        = some ("compilation failed: " ++ env.exec.compile.output)) ∧
    (ExecuteCode env).1 = Response.error 400 ("compilation failed: " ++ env.exec.compile.output) := by
  have herr : env.exec.compile.finish.err = true := by
    rw [hc]; simp [ProcessEnd.err, hs]
  refine ⟨?_, ?_⟩
  · intro code test_cases
    rw [Execute_of_compile_error env.exec code test_cases hw herr]
  · unfold ExecuteCode
    simp only [hb, hp, hv]
    rw [Execute_of_compile_error env.exec _ _ hw herr]

/-- A witness of C8, amended: the request of `scenarioB`. -/
theorem Execute_compile_error_message_witness :
    (∀ (code : String) (test_cases : List TestCase),
      (Execute scenarioB.exec code test_cases).1.2
        = some ("compilation failed: " ++ scenarioB.exec.compile.output)) ∧
    (ExecuteCode scenarioB).1
      = Response.error 400 ("compilation failed: " ++ scenarioB.exec.compile.output) :=
  Execute_compile_error_message scenarioB
    { Code := "int main( {}", ProblemID := "playground", CustomCases := [], Mode := "run" }
    { Title := "Playground", SampleCases := [], HiddenCases := [] } 1
    (by decide) rfl (by decide) rfl (by decide) rfl

/-- The counting loop of `ExecuteCode`, started from `n`, adds the number of
passed results to `n`. -/
theorem foldl_count_passed (results : List ExecutionResult) :
    ∀ n : Int,
      results.foldl
        (fun total_passed result => if result.Passed then total_passed + 1 else total_passed) n
        = n + (results.countP (fun result => result.Passed) : Nat) := by
  induction results with
  | nil => intro n; simp
  | cons result rest ih =>
    intro n
    rw [List.foldl_cons, ih]
    by_cases hpass : result.Passed = true
    · simp [hpass, List.countP_cons]
      ring
    · simp [hpass, List.countP_cons]

/-- The counting loop of `ExecuteCode` computes the number of passed results. -/
theorem totalPassed_eq_countP (results : List ExecutionResult) :
    totalPassed results = (results.countP (fun result => result.Passed) : Nat) := by
  unfold totalPassed
  rw [foldl_count_passed]
  simp

/-- C9: when `Execute` returns the results `results` and no error, the handler
answers with a response whose `TotalCases` is the number of results, whose
`TotalPassed` is the number of passed results, whose `Results` is `results`,
and whose `Success` is `TotalPassed == TotalCases`, which is true exactly when
every result passed. -/
theorem ExecuteCode_response_summary (env : HandlerEnv) (request : ExecutionRequest)
    (problem : Problem) (results : List ExecutionResult)
    (hb : ShouldBindJSON env.body = some request)
    (hp : getProblem env request = Except.ok problem)
    (hv : ValidateCode request.Code = none)
    (hx : (Execute env.exec request.Code (allCases problem request)).1 = (results, none)) :
    ∃ response : ExecutionResponse,
      (ExecuteCode env).1 = Response.ok response ∧
      response.TotalCases = (results.length : Int) ∧
      response.TotalPassed = ((results.countP (fun result => result.Passed) : Nat) : Int) ∧
      response.Results = results ∧
      response.Success = decide (response.TotalPassed = response.TotalCases) ∧
      (response.Success = true ↔ ∀ result ∈ results, result.Passed = true) := by
  refine ⟨buildResponse results, ?_, rfl, ?_, rfl, ?_, ?_⟩
  · unfold ExecuteCode
    simp only [hb, hp, hv, hx]
  · exact totalPassed_eq_countP results
  · rfl
  · simp only [buildResponse, totalPassed_eq_countP, beq_iff_eq, Nat.cast_inj]
    exact List.countP_eq_length

/-- A witness of C9: of the two cases of `scenarioD` the first passes and the
second fails, so the response has `Success` false, `TotalPassed` 1 and
`TotalCases` 2. -/
theorem ExecuteCode_response_summary_witness :
    (ExecuteCode scenarioD).1
      = Response.ok
          { Success := false
            Results :=
              [ { CaseNumber := 1, Input := "2 2", ExpectedOutput := "4", ActualOutput := "4",
                  Passed := true, Error := "" },
                { CaseNumber := 2, Input := "1 2", ExpectedOutput := "3", ActualOutput := "4",
                  Passed := false, Error := "" } ]
            TotalPassed := 1
            TotalCases := 2 } ∧
    ∃ response : ExecutionResponse,
      (ExecuteCode scenarioD).1 = Response.ok response ∧
      response.TotalCases = 2 ∧
      response.TotalPassed = 1 ∧
      response.Results.length = 2 ∧
      response.Success = decide (response.TotalPassed = response.TotalCases) ∧
      (response.Success = true ↔
        ∀ result ∈ (Execute scenarioD.exec "int main(){}"
          [⟨"2 2", "4", ""⟩, ⟨"1 2", "3", ""⟩]).1.1, result.Passed = true) := by
  refine ⟨by decide, ?_⟩
  obtain ⟨response, h1, h2, h3, h4, h5, h6⟩ :=
    ExecuteCode_response_summary scenarioD
      { Code := "int main(){}", ProblemID := "playground"
        CustomCases := [⟨"2 2", "4", ""⟩, ⟨"1 2", "3", ""⟩], Mode := "run" }
      { Title := "Playground", SampleCases := [], HiddenCases := [] }
      (Execute scenarioD.exec "int main(){}" [⟨"2 2", "4", ""⟩, ⟨"1 2", "3", ""⟩]).1.1
      (by decide) rfl (by decide) (by decide)
  refine ⟨response, h1, ?_, ?_, ?_, h5, h6⟩
  · rw [h2]; decide
  · rw [h3]; decide
  · rw [h4]; decide

/-- A string of white space only is trimmed to the empty string. -/
theorem TrimSpace_of_blank (s : String) (h : ∀ c ∈ s.data, isSpace c = true) :
    TrimSpace s = "" := by
  unfold TrimSpace
  rw [List.dropWhile_eq_nil_iff.mpr h, List.rdropWhile_nil]

/-- `ValidateCode` fails with the empty-source error on a source of white
space only. -/
theorem ValidateCode_of_blank (code : String) (h : ∀ c ∈ code.data, isSpace c = true) :
    ValidateCode code = some "code cannot be empty" := by
  unfold ValidateCode
  rw [if_pos (TrimSpace_of_blank code h)]

/-- The handler answers `Invalid request format` when the request is not
bound, and performs no event. -/
theorem ExecuteCode_of_unbound (env : HandlerEnv) (hb : ShouldBindJSON env.body = none) :
    ExecuteCode env = (Response.error 400 "Invalid request format", []) := by
  unfold ExecuteCode
  simp only [hb]

/-- The handler answers with the response of the failed problem lookup, and
performs no event. -/
theorem ExecuteCode_of_no_problem (env : HandlerEnv) (request : ExecutionRequest)
    (response : Response) (hb : ShouldBindJSON env.body = some request)
    (hp : getProblem env request = Except.error response) :
    ExecuteCode env = (response, []) := by
  unfold ExecuteCode
  simp only [hb, hp]

/-- The handler answers with status 400 and the error of `ValidateCode`, and
performs no event. -/
theorem ExecuteCode_of_invalid (env : HandlerEnv) (request : ExecutionRequest)
    (problem : Problem) (err : String) (hb : ShouldBindJSON env.body = some request)
    (hp : getProblem env request = Except.ok problem)
    (hv : ValidateCode request.Code = some err) :
    ExecuteCode env = (Response.error 400 err, []) := by
  unfold ExecuteCode
  simp only [hb, hp, hv]

/-- A failed problem lookup answers with an error. -/
theorem getProblem_error (env : HandlerEnv) (request : ExecutionRequest) (response : Response)
    (hp : getProblem env request = Except.error response) :
    ∃ (status : Nat) (msg : String), response = Response.error status msg := by
  unfold getProblem at hp
  split at hp
  · split at hp
    · cases hp; exact ⟨_, _, rfl⟩
    · cases hp
  · split at hp
    · cases hp
    · split at hp
      · cases hp; exact ⟨_, _, rfl⟩
      · cases hp

/-- Counterexample to C10: a request whose source is the empty string is
rejected by the binding of the request, with the error `Invalid request
format`, not by `ValidateCode`; and a request with a source of white space
for a problem that is not stored is rejected with `Problem not found`. -/
theorem blank_source_other_error :
    ValidateCode "" = some "code cannot be empty" ∧
    ExecuteCode (requestFor "" "playground")
      = (Response.error 400 "Invalid request format", []) ∧
    (ExecuteCode (requestFor "" "playground")).1 ≠ Response.error 400 "code cannot be empty" ∧
    ValidateCode " \n" = some "code cannot be empty" ∧
    ExecuteCode (requestFor " \n" "42") = (Response.error 404 "Problem not found", []) ∧
    (ExecuteCode (requestFor " \n" "42")).1 ≠ Response.error 400 "code cannot be empty" := by
  decide

/-- C10, amended: for a source that is empty or of white space only,
`ValidateCode` fails with `code cannot be empty`; the handler answers a request
with such a source with an error and performs no event (no file is written, no
command is started: `Execute` is not called); and when the request is bound
(its source and problem id are not empty) and its problem is found, the answer
is status 400 with the error `code cannot be empty`. -/
theorem ExecuteCode_blank_source (env : HandlerEnv) (request : ExecutionRequest)
    (hbody : env.body = some request)
    (hblank : ∀ c ∈ request.Code.data, isSpace c = true) :
    ValidateCode request.Code = some "code cannot be empty" ∧
    (ExecuteCode env).2 = [] ∧
    (∃ (status : Nat) (msg : String), (ExecuteCode env).1 = Response.error status msg) ∧
    (∀ problem : Problem, request.Code ≠ "" → request.ProblemID ≠ "" →
      getProblem env request = Except.ok problem →
      (ExecuteCode env).1 = Response.error 400 "code cannot be empty") := by
  have hv := ValidateCode_of_blank request.Code hblank
  refine ⟨hv, ?_⟩
  by_cases hreq : request.Code = "" ∨ request.ProblemID = ""
  · have hnone : ShouldBindJSON env.body = none := by
      rw [hbody]
      simp only [ShouldBindJSON, if_pos hreq]
    rw [ExecuteCode_of_unbound env hnone]
    refine ⟨rfl, ⟨400, _, rfl⟩, ?_⟩
    intro problem h1 h2 _
    rcases hreq with h | h
    · exact absurd h h1
    · exact absurd h h2
  · have hsome : ShouldBindJSON env.body = some request := by
      rw [hbody]
      simp only [ShouldBindJSON, if_neg hreq]
    cases hp : getProblem env request with
    | error response =>
      rw [ExecuteCode_of_no_problem env request response hsome hp]
      refine ⟨rfl, getProblem_error env request response hp, ?_⟩
      intro problem _ _ hcontra
      cases hcontra
    | ok problem =>
      rw [ExecuteCode_of_invalid env request problem _ hsome hp hv]
      exact ⟨rfl, ⟨400, _, rfl⟩, fun _ _ _ _ => rfl⟩

/-- A witness of C10, amended: a source of a blank, a newline and a tab, sent
for the playground. -/
theorem ExecuteCode_blank_source_witness :
    (requestFor " \n\t" "playground").body
      = some { Code := " \n\t", ProblemID := "playground", CustomCases := [], Mode := "run" } ∧
    (∀ c ∈ " \n\t".data, isSpace c = true) ∧
    ValidateCode " \n\t" = some "code cannot be empty" ∧
    (ExecuteCode (requestFor " \n\t" "playground")).2 = [] ∧
    (ExecuteCode (requestFor " \n\t" "playground")).1
      = Response.error 400 "code cannot be empty" :=
  have h := ExecuteCode_blank_source (requestFor " \n\t" "playground")
    { Code := " \n\t", ProblemID := "playground", CustomCases := [], Mode := "run" }
    rfl (by decide)
  ⟨rfl, by decide, h.1, h.2.1,
    h.2.2.2 { Title := "Playground", SampleCases := [], HiddenCases := [] }
      (by decide) (by decide) rfl⟩

/-! ## Properties of `ValidateCode` -/

/-- The characters of `p` are the first characters of `s` exactly when `s` is
`p` followed by some text. -/
theorem startsWith_iff (s p : List Char) : startsWith s p = true ↔ ∃ b, s = p ++ b := by
  induction s generalizing p with
  | nil =>
    cases p with
    | nil => simp [startsWith]
    | cons b p => simp [startsWith]
  | cons a s ih =>
    cases p with
    | nil => simp [startsWith]
    | cons b p => simp [startsWith, ih]

/-- The text `p` occurs in `s` exactly when `s` is some text, then `p`, then
some text. -/
theorem containsChars_iff (s p : List Char) :
    containsChars s p = true ↔ ∃ a b, s = a ++ p ++ b := by
  induction s with
  | nil =>
    cases p with
    | nil => simp [containsChars]
    | cons c p => simp [containsChars]
  | cons x s ih =>
    rw [containsChars, Bool.or_eq_true, startsWith_iff, ih]
    constructor
    · rintro (⟨b, hb⟩ | ⟨a, b, hab⟩)
      · exact ⟨[], b, by simpa using hb⟩
      · exact ⟨x :: a, b, by simp [hab]⟩
    · rintro ⟨a, b, hab⟩
      cases a with
      | nil => exact Or.inl ⟨b, by simpa using hab⟩
      | cons y a =>
        simp only [List.cons_append, List.cons.injEq] at hab
        exact Or.inr ⟨a, b, hab.2⟩

/-- Counterexample to C11: a source of blanks does not contain `int main`, and
`ValidateCode` fails on it with the empty-source error, not with the
missing-entry-point error. -/
theorem blank_source_not_missing_main :
    Contains "  " "int main" = false ∧
    ValidateCode "  " = some "code cannot be empty" ∧
    ValidateCode "  " ≠ some "code must contain a main function" ∧
    Contains "" "int main" = false ∧
    ValidateCode "" ≠ some "code must contain a main function" := by
  decide

/-- C11, amended: for a source in which the text `int main` does not occur,
`ValidateCode` fails: with the error `code must contain a main function` when
the trimmed source is not empty, and with `code cannot be empty` when it is. -/
theorem ValidateCode_missing_main (code : String)
    (h : ¬ ∃ a b : List Char, code.data = a ++ "int main".data ++ b) :
    (TrimSpace code ≠ "" → ValidateCode code = some "code must contain a main function") ∧
    (TrimSpace code = "" → ValidateCode code = some "code cannot be empty") := by
  have hc : Contains code "int main" = false := by
    cases hcon : Contains code "int main" with
    | false => rfl
    | true => exact absurd ((containsChars_iff _ _).mp hcon) h
  unfold ValidateCode
  constructor
  · intro ht
    simp [ht, hc]
  · intro ht
    simp [ht]

/-- A witness of C11, amended: `int` and `main` two blanks apart. -/
theorem ValidateCode_missing_main_witness :
    (¬ ∃ a b : List Char, "int  main()\x7b\x7d".data = a ++ "int main".data ++ b) ∧
    ValidateCode "int  main()\x7b\x7d" = some "code must contain a main function" :=
  have h : ¬ ∃ a b : List Char, "int  main()\x7b\x7d".data = a ++ "int main".data ++ b := by
    rw [← containsChars_iff]
    decide
  ⟨h, (ValidateCode_missing_main "int  main()\x7b\x7d" h).1 (by decide)⟩

/-- When the body of the request decodes, binding gives that request or
fails. -/
theorem ShouldBindJSON_of_body (env : HandlerEnv) (request : ExecutionRequest)
    (hbody : env.body = some request) :
    ShouldBindJSON env.body = none ∨ ShouldBindJSON env.body = some request := by
  rw [hbody]
  unfold ShouldBindJSON
  by_cases hreq : request.Code = "" ∨ request.ProblemID = ""
  · exact Or.inl (if_pos hreq)
  · exact Or.inr (if_neg hreq)

/-- A request whose source `ValidateCode` rejects is answered with an error
and without any event; when the request is bound and its problem is found the
answer is status 400 with the error of `ValidateCode`. -/
theorem ExecuteCode_of_validation_error (env : HandlerEnv) (request : ExecutionRequest)
    (err : String) (hbody : env.body = some request)
    (hv : ValidateCode request.Code = some err) :
    (ExecuteCode env).2 = [] ∧
    (∃ (status : Nat) (msg : String), (ExecuteCode env).1 = Response.error status msg) ∧
    (∀ problem : Problem, ShouldBindJSON env.body = some request →
      getProblem env request = Except.ok problem →
      (ExecuteCode env).1 = Response.error 400 err) := by
  rcases ShouldBindJSON_of_body env request hbody with hnone | hsome
  · rw [ExecuteCode_of_unbound env hnone]
    refine ⟨rfl, ⟨400, _, rfl⟩, ?_⟩
    intro problem hb _
    rw [hnone] at hb
    cases hb
  · cases hp : getProblem env request with
    | error response =>
      rw [ExecuteCode_of_no_problem env request response hsome hp]
      refine ⟨rfl, getProblem_error env request response hp, ?_⟩
      intro problem _ hcontra
      cases hcontra
    | ok problem =>
      rw [ExecuteCode_of_invalid env request problem err hsome hp hv]
      exact ⟨rfl, ⟨400, _, rfl⟩, fun _ _ _ => rfl⟩

/-- The first event of `Execute` is the write of the source file, whatever the
source is. -/
theorem Execute_writes_first (env : ExecEnv) (code : String) (test_cases : List TestCase) :
    (Execute env code test_cases).2.head?
      = some (Event.writeFile (source_file env.execution_id) code) := by
  unfold Execute source_file
  cases env.writeErr with
  | some err => rfl
  | none =>
    by_cases hc : env.compile.finish.err = true
    · simp [hc]
    · simp [hc, runCases_events]

/-- Counterexample to C12: `ValidateCode` rejects a source with two blanks
between `int` and `main`, but `Execute` does not validate: it writes the source
file, runs the compiler and, as the source compiles, runs the test cases and
returns their results and no error. -/
theorem Execute_does_not_validate :
    ValidateCode "int  main()\x7b\x7d" = some "code must contain a main function" ∧
    (Execute sampleEnv "int  main()\x7b\x7d" sampleCases).1.2 = none ∧
    (Execute sampleEnv "int  main()\x7b\x7d" sampleCases).1.1.length = 3 ∧
    (Execute sampleEnv "int  main()\x7b\x7d" sampleCases).2.take 2
      = [Event.writeFile "/tmp/temp_6f1c.cpp" "int  main()\x7b\x7d",
         Event.start "g++" ["-O3", "/tmp/temp_6f1c.cpp", "-o", "/tmp/bin_6f1c"] ""] := by
  decide

/-- C12, amended: the validator is run by the handler `ExecuteCode` before it
calls `Execute`, not by `Execute`. A request whose source is empty after
trimming or lacks `int main` is answered with an error and without any event
(no file written, no compiler started); when the request is bound and its
problem is found the answer is status 400 with the validation error. `Execute`
itself starts by writing the source file, whatever the source is. -/
theorem ExecuteCode_validates_before_Execute (env : HandlerEnv) (request : ExecutionRequest)
    (hbody : env.body = some request)
    (hv : TrimSpace request.Code = "" ∨ Contains request.Code "int main" = false) :
    (∃ err : String, ValidateCode request.Code = some err ∧
      (ExecuteCode env).2 = [] ∧
      (∃ (status : Nat) (msg : String), (ExecuteCode env).1 = Response.error status msg) ∧
      (∀ problem : Problem, ShouldBindJSON env.body = some request →
        getProblem env request = Except.ok problem →
        (ExecuteCode env).1 = Response.error 400 err)) ∧
    (∀ test_cases : List TestCase,
      (Execute env.exec request.Code test_cases).2.head?
        = some (Event.writeFile (source_file env.exec.execution_id) request.Code)) := by
  have hval : ∃ err : String, ValidateCode request.Code = some err := by
    unfold ValidateCode
    by_cases ht : TrimSpace request.Code = ""
    · exact ⟨_, if_pos ht⟩
    · rcases hv with h | h
      · exact absurd h ht
      · exact ⟨"code must contain a main function", by simp [ht, h]⟩
  obtain ⟨err, herr⟩ := hval
  exact ⟨⟨err, herr, ExecuteCode_of_validation_error env request err hbody herr⟩,
    fun test_cases => Execute_writes_first env.exec request.Code test_cases⟩

/-- A witness of C12, amended: a request for the playground whose source has
two blanks between `int` and `main`. -/
theorem ExecuteCode_validates_before_Execute_witness :
    Contains "int  main()\x7b\x7d" "int main" = false ∧
    ExecuteCode (requestFor "int  main()\x7b\x7d" "playground")
      = (Response.error 400 "code must contain a main function", []) ∧
    ∃ err : String, ValidateCode "int  main()\x7b\x7d" = some err ∧
      (ExecuteCode (requestFor "int  main()\x7b\x7d" "playground")).2 = [] :=
  have h := ExecuteCode_validates_before_Execute
    (requestFor "int  main()\x7b\x7d" "playground")
    { Code := "int  main()\x7b\x7d", ProblemID := "playground", CustomCases := [], Mode := "run" }
    rfl (Or.inr (by decide))
  ⟨by decide, by decide, h.1.elim fun err herr => ⟨err, herr.1, herr.2.1⟩⟩

/-! ## The compile step of `Execute` -/

/-- Each event of a call of `runTestCase` is the start or the kill of the
binary. -/
theorem runTestCase_events (bin : String) (test_case : TestCase) (case_number : Int)
    (obs : ProcObs) :
    ∀ e ∈ (runTestCase bin test_case case_number obs).2,
      e = Event.start bin [] test_case.Input ∨ e = Event.kill bin := by
  unfold runTestCase
  cases obs.outcome with
  | timeout => simp
  | done e =>
    by_cases he : e.err = true
    · simp [he]
    · by_cases hx : TrimSpace test_case.ExpectedOutput = ""
      · simp [he, hx]
      · simp [he, hx]

/-- The loop of `Execute` reads the environment only through the runs of the
binary. -/
theorem runCases_congr (env other : ExecEnv) (bin : String) (hrun : other.run = env.run)
    (test_cases : List TestCase) (i : Nat) (results : List ExecutionResult) (tr : List Event) :
    runCases other bin test_cases i results tr = runCases env bin test_cases i results tr := by
  apply Prod.ext
  · rw [runCases_results, runCases_results, hrun]
  · rw [runCases_events, runCases_events, hrun]

/-- `Execute` reads the environment only through the identifier, the error of
the write, the end and the output of the compiler run, and the runs of the
binary. -/
theorem Execute_congr (env other : ExecEnv) (code : String) (test_cases : List TestCase)
    (hid : other.execution_id = env.execution_id) (hw : other.writeErr = env.writeErr)
    (hf : other.compile.finish = env.compile.finish)
    (ho : other.compile.output = env.compile.output) (hrun : other.run = env.run) :
    Execute other code test_cases = Execute env code test_cases := by
  unfold Execute
  simp only [hid, hw, hf, ho, runCases_congr env other _ hrun]

/-- No event of `Execute` kills the compiler. -/
theorem Execute_never_kills_compiler (env : ExecEnv) (code : String)
    (test_cases : List TestCase) : Event.kill "g++" ∉ (Execute env code test_cases).2 := by
  cases hw : env.writeErr with
  | some err => simp [Execute, hw]
  | none =>
    by_cases hc : env.compile.finish.err = true
    · rw [Execute_of_compile_error env code test_cases hw hc]
      simp
    · have h0 : env.compile.finish = ProcessEnd.exited 0 :=
        (ProcessEnd.err_eq_false_iff _).mp (by simpa using hc)
      rw [Execute_of_compiled env code test_cases hw h0]
      intro hmem
      simp only [List.mem_append, List.mem_cons, List.mem_flatten, List.mem_map,
        List.mem_singleton, List.not_mem_nil, or_false] at hmem
      rcases hmem with (h | h) | h
      · rcases h with h | h <;> cases h
      · obtain ⟨l, ⟨p, _, hp⟩, hl⟩ := h
        rw [← hp] at hl
        rcases runTestCase_events _ _ _ _ _ hl with h | h
        · cases h
        · injection h with h
          exact compiler_ne_binary env.execution_id h
      · rcases h with h | h <;> cases h

/-- C13, as the code behaves: `Execute` does not look at the time the compiler
takes. Whatever that time is, `Execute` returns and does what it does when the
compiler takes no time, and no event kills the compiler. In `slowCompileEnv`
the compiler takes 60 seconds, more than `COMPILE_TIMEOUT`, and `Execute`
returns the three results and no error. -/
theorem Execute_ignores_compile_time (env : ExecEnv) (code : String)
    (test_cases : List TestCase) (t : Nat) :
    Execute { env with compile := { env.compile with elapsed := t } } code test_cases
      = Execute env code test_cases ∧
    Event.kill "g++" ∉ (Execute env code test_cases).2 ∧
    COMPILE_TIMEOUT < slowCompileEnv.compile.elapsed ∧
    (Execute slowCompileEnv "int main()\x7b\x7d" sampleCases).1.2 = none ∧
    (Execute slowCompileEnv "int main()\x7b\x7d" sampleCases).1.1.length = 3 :=
  ⟨Execute_congr env _ code test_cases rfl rfl rfl rfl rfl,
    Execute_never_kills_compiler env code test_cases, by decide, by decide, by decide⟩

/-! ## The paths of a run -/

/-- The source path determines the identifier. -/
theorem source_file_injective (a b : String) (h : source_file a = source_file b) : a = b := by
  have hd := congrArg String.data h
  simp only [source_file, String.data_append] at hd
  exact String.ext (List.append_cancel_left (List.append_cancel_right hd))

/-- The binary path determines the identifier. -/
theorem binary_file_injective (a b : String) (h : binary_file a = binary_file b) : a = b := by
  have hd := congrArg String.data h
  simp only [binary_file, String.data_append] at hd
  exact String.ext (List.append_cancel_left hd)

/-- A source path is never a binary path. -/
theorem source_file_ne_binary_file (a b : String) : source_file a ≠ binary_file b := by
  intro h
  have hd := congrArg String.data h
  simp [source_file, binary_file] at hd

/-- C15: when the source file is written, `Execute` writes it to
`/tmp/temp_<id>.cpp` and has the compiler read that path and write
`/tmp/bin_<id>`, for the one identifier of the run; two runs with distinct
identifiers have no path in common, and the source path of a run is not its
binary path. -/
theorem paths_collision_free (env : ExecEnv) (code : String) (test_cases : List TestCase)
    (hw : env.writeErr = none) :
    (Execute env code test_cases).2.take 2
      = [Event.writeFile (source_file env.execution_id) code,
         Event.start "g++"
          ["-O3", source_file env.execution_id, "-o", binary_file env.execution_id] ""] ∧
    source_file env.execution_id = "/tmp/temp_" ++ env.execution_id ++ ".cpp" ∧
    binary_file env.execution_id = "/tmp/bin_" ++ env.execution_id ∧
    (∀ a b : String, a ≠ b →
      source_file a ≠ source_file b ∧ source_file a ≠ binary_file b ∧
      binary_file a ≠ source_file b ∧ binary_file a ≠ binary_file b) ∧
    (∀ a : String, source_file a ≠ binary_file a) := by
  refine ⟨?_, rfl, rfl, ?_, fun a => source_file_ne_binary_file a a⟩
  · by_cases hc : env.compile.finish.err = true
    · rw [Execute_of_compile_error env code test_cases hw hc]
      rfl
    · have h0 : env.compile.finish = ProcessEnd.exited 0 :=
        (ProcessEnd.err_eq_false_iff _).mp (by simpa using hc)
      rw [Execute_of_compiled env code test_cases hw h0]
      rfl
  · intro a b hab
    exact ⟨fun h => hab (source_file_injective a b h), source_file_ne_binary_file a b,
      fun h => source_file_ne_binary_file b a h.symm,
      fun h => hab (binary_file_injective a b h)⟩

/-- A witness of C15: the run of `sampleEnv`, whose identifier is `6f1c`. -/
theorem paths_collision_free_witness :
    sampleEnv.writeErr = none ∧
    (Execute sampleEnv "int main()\x7b\x7d" sampleCases).2.take 2
      = [Event.writeFile "/tmp/temp_6f1c.cpp" "int main()\x7b\x7d",
         Event.start "g++" ["-O3", "/tmp/temp_6f1c.cpp", "-o", "/tmp/bin_6f1c"] ""] ∧
    source_file "6f1c" ≠ binary_file "6f1c" :=
  have h := paths_collision_free sampleEnv "int main()\x7b\x7d" sampleCases rfl
  ⟨rfl, h.1, h.2.2.2.2 "6f1c"⟩

/-! ## The test cases the handler runs -/

/-- What the handler does for a request that is bound, whose problem is found
and whose source is valid: it calls `Execute` on the source and the assembled
test cases. -/
theorem ExecuteCode_of_valid (env : HandlerEnv) (request : ExecutionRequest)
    (problem : Problem) (hb : ShouldBindJSON env.body = some request)
    (hp : getProblem env request = Except.ok problem)
    (hv : ValidateCode request.Code = none) :
    ExecuteCode env =
      (match (Execute env.exec request.Code (allCases problem request)).1.2 with
        | some err => Response.error 400 err
        | none =>
          Response.ok (buildResponse (Execute env.exec request.Code (allCases problem request)).1.1),
       (Execute env.exec request.Code (allCases problem request)).2) := by
  unfold ExecuteCode
  simp only [hb, hp, hv]
  cases (Execute env.exec request.Code (allCases problem request)).1.2 <;> rfl

/-- C16: the handler runs `Execute` on a list of test cases assembled from the
mode: for the mode `submit` the sample cases of the problem followed by its
hidden cases, for every other mode the sample cases followed by the custom
cases of the request. -/
theorem ExecuteCode_case_list (env : HandlerEnv) (request : ExecutionRequest)
    (problem : Problem) (hb : ShouldBindJSON env.body = some request)
    (hp : getProblem env request = Except.ok problem)
    (hv : ValidateCode request.Code = none) :
    (request.Mode = "submit" →
      (ExecuteCode env).2
        = (Execute env.exec request.Code (problem.SampleCases ++ problem.HiddenCases)).2 ∧
      allCases problem request = problem.SampleCases ++ problem.HiddenCases) ∧
    (request.Mode ≠ "submit" →
      (ExecuteCode env).2
        = (Execute env.exec request.Code (problem.SampleCases ++ request.CustomCases)).2 ∧
      allCases problem request = problem.SampleCases ++ request.CustomCases) := by
  have hall : allCases problem request
      = if request.Mode = "submit" then problem.SampleCases ++ problem.HiddenCases
        else problem.SampleCases ++ request.CustomCases := by
    unfold allCases
    by_cases hm : request.Mode = "submit"
    · simp [hm]
    · cases hcc : request.CustomCases with
      | nil => simp [hm]
      | cons c cs => simp [hm]
  rw [ExecuteCode_of_valid env request problem hb hp hv, hall]
  constructor
  · intro hm
    simp [hm]
  · intro hm
    simp [hm]

/-- A witness of C16: a request in the mode `submit` for a stored problem with
one sample case and one hidden case; the binary is started on the sample input
and then on the hidden input, not on the custom input. -/
theorem ExecuteCode_case_list_witness :
    (requestInMode "submit").body
      = some { Code := "int main()\x7b\x7d", ProblemID := "p1"
               CustomCases := [⟨"1 2", "3", ""⟩], Mode := "submit" } ∧
    (ExecuteCode (requestInMode "submit")).2
      = (Execute sampleEnv "int main()\x7b\x7d"
          (storedProblem.SampleCases ++ storedProblem.HiddenCases)).2 ∧
    (ExecuteCode (requestInMode "submit")).2.filter (Event.isStartOf "/tmp/bin_6f1c")
      = [Event.start "/tmp/bin_6f1c" [] "2 2", Event.start "/tmp/bin_6f1c" [] "5 5"] ∧
    (ExecuteCode (requestInMode "run")).2.filter (Event.isStartOf "/tmp/bin_6f1c")
      = [Event.start "/tmp/bin_6f1c" [] "2 2", Event.start "/tmp/bin_6f1c" [] "1 2"] :=
  have h := ExecuteCode_case_list (requestInMode "submit")
    { Code := "int main()\x7b\x7d", ProblemID := "p1"
      CustomCases := [⟨"1 2", "3", ""⟩], Mode := "submit" }
    storedProblem (by decide) rfl (by decide)
  ⟨rfl, (h.1 rfl).1, by decide, by decide⟩

/-! ## The actual output -/

/-- Trimming removes a run of white space at the start and a run of white
space at the end, and nothing else. -/
theorem TrimSpace_decompose (s : String) :
    ∃ pre post : List Char, (∀ c ∈ pre, isSpace c = true) ∧ (∀ c ∈ post, isSpace c = true) ∧
      s.data = pre ++ (TrimSpace s).data ++ post := by
  refine ⟨s.data.takeWhile isSpace, (s.data.dropWhile isSpace).rtakeWhile isSpace,
    fun c hc => List.mem_takeWhile_imp hc, fun c hc => List.mem_rtakeWhile_imp hc, ?_⟩
  have hsplit : ∀ l : List Char, l.rdropWhile isSpace ++ l.rtakeWhile isSpace = l := by
    intro l
    unfold List.rdropWhile List.rtakeWhile
    rw [← List.reverse_append, List.takeWhile_append_dropWhile, List.reverse_reverse]
  unfold TrimSpace
  rw [List.append_assoc, hsplit, List.takeWhile_append_dropWhile]

/-- The trimmed text does not start with white space. -/
theorem TrimSpace_head (s : String) (c : Char) (h : (TrimSpace s).data.head? = some c) :
    isSpace c = false := by
  unfold TrimSpace at h
  obtain ⟨ys, hys⟩ := List.head?_eq_some_iff.mp h
  obtain ⟨r, hr⟩ := List.rdropWhile_prefix isSpace (l := s.data.dropWhile isSpace)
  have hnot := List.head?_dropWhile_not isSpace s.data
  rw [← hr] at hnot
  simp only at hys
  rw [hys] at hnot
  simpa using hnot

/-- The trimmed text does not end with white space. -/
theorem TrimSpace_last (s : String) (c : Char) (h : (TrimSpace s).data.getLast? = some c) :
    isSpace c = false := by
  unfold TrimSpace at h
  have hne : (s.data.dropWhile isSpace).rdropWhile isSpace ≠ [] := by
    intro hnil
    simp only at h
    rw [hnil] at h
    cases h
  have hnot := List.rdropWhile_last_not isSpace (s.data.dropWhile isSpace) hne
  simp only at h
  rw [List.getLast?_eq_getLast _ hne] at h
  cases h
  simpa using hnot

/-- C17: when the process exits with status 0 before the timer fires, the
actual output of the result is the trimmed standard output — the standard
output without a run of white space at its start and at its end, and starting
and ending with characters that are not white space — and the error is
empty. -/
theorem runTestCase_actual_output (bin : String) (test_case : TestCase) (case_number : Int)
    (obs : ProcObs) (h : obs.outcome = SelectOutcome.done (ProcessEnd.exited 0)) :
    (runTestCase bin test_case case_number obs).1.ActualOutput = TrimSpace obs.stdout ∧
    (runTestCase bin test_case case_number obs).1.Error = "" ∧
    (∃ pre post : List Char, (∀ c ∈ pre, isSpace c = true) ∧ (∀ c ∈ post, isSpace c = true) ∧
      obs.stdout.data
        = pre ++ (runTestCase bin test_case case_number obs).1.ActualOutput.data ++ post) ∧
    (∀ c : Char, (runTestCase bin test_case case_number obs).1.ActualOutput.data.head? = some c →
      isSpace c = false) ∧
    (∀ c : Char,
      (runTestCase bin test_case case_number obs).1.ActualOutput.data.getLast? = some c →
      isSpace c = false) := by
  have hact : (runTestCase bin test_case case_number obs).1.ActualOutput = TrimSpace obs.stdout := by
    unfold runTestCase
    rw [h]
    by_cases hx : TrimSpace test_case.ExpectedOutput = ""
    · simp [ProcessEnd.err, hx]
    · simp [ProcessEnd.err, hx]
  have herr : (runTestCase bin test_case case_number obs).1.Error = "" := by
    unfold runTestCase
    rw [h]
    by_cases hx : TrimSpace test_case.ExpectedOutput = ""
    · simp [ProcessEnd.err, hx]
    · simp [ProcessEnd.err, hx]
  rw [hact]
  exact ⟨rfl, herr, TrimSpace_decompose obs.stdout, TrimSpace_head obs.stdout,
    TrimSpace_last obs.stdout⟩

/-- A witness of C17: the expected output is `4` and the process prints `4`
and a newline. -/
theorem runTestCase_actual_output_witness :
    (exitsZero "4\n").outcome = SelectOutcome.done (ProcessEnd.exited 0) ∧
    (runTestCase "/tmp/bin_6f1c" ⟨"2 2", "4", ""⟩ 1 (exitsZero "4\n")).1.ActualOutput = "4" ∧
    (runTestCase "/tmp/bin_6f1c" ⟨"2 2", "4", ""⟩ 1 (exitsZero "4\n")).1.Passed = true ∧
    (runTestCase "/tmp/bin_6f1c" ⟨"2 2", "4", ""⟩ 1 (exitsZero "4\n")).1.Error = "" :=
  have h := runTestCase_actual_output "/tmp/bin_6f1c" ⟨"2 2", "4", ""⟩ 1 (exitsZero "4\n") rfl
  ⟨rfl, h.1.trans (by decide), by decide, h.2.1⟩

/-! ## The temporary files -/

/-- The files after some events followed by the removal of `a` and then of
`b`. -/
theorem applyEvents_removals (other : Event → Files → Files) (pre : List Event)
    (a b : String) (files : Files) :
    applyEvents other (pre ++ [Event.remove a, Event.remove b]) files
      = fun p => if p = b then false else if p = a then false else applyEvents other pre files p := by
  simp [applyEvents, List.foldl_append, Event.apply]

/-- The events of `Execute`, when the source file is written, are events that
are not removals, followed by the removal of the binary file and then of the
source file. -/
theorem Execute_events_shape (env : ExecEnv) (code : String) (test_cases : List TestCase)
    (hw : env.writeErr = none) :
    ∃ pre : List Event,
      (Execute env code test_cases).2
        = pre ++ [Event.remove (binary_file env.execution_id),
            Event.remove (source_file env.execution_id)] ∧
      ∀ e ∈ pre, e.isRemove = false := by
  by_cases hc : env.compile.finish.err = true
  · rw [Execute_of_compile_error env code test_cases hw hc]
    refine ⟨[Event.writeFile ("/tmp/temp_" ++ env.execution_id ++ ".cpp") code,
      Event.start "g++"
        ["-O3", "/tmp/temp_" ++ env.execution_id ++ ".cpp", "-o", "/tmp/bin_" ++ env.execution_id]
        ""], rfl, ?_⟩
    intro e he
    simp only [List.mem_cons, List.mem_singleton, List.not_mem_nil, or_false] at he
    rcases he with he | he <;> rw [he] <;> rfl
  · have h0 : env.compile.finish = ProcessEnd.exited 0 :=
      (ProcessEnd.err_eq_false_iff _).mp (by simpa using hc)
    rw [Execute_of_compiled env code test_cases hw h0]
    refine ⟨_, rfl, ?_⟩
    intro e he
    simp only [List.mem_append, List.mem_cons, List.mem_flatten, List.mem_map,
      List.not_mem_nil, or_false] at he
    rcases he with (he | he) | he
    · rw [he]; rfl
    · rw [he]; rfl
    · obtain ⟨l, ⟨p, _, hp⟩, hl⟩ := he
      rw [← hp] at hl
      rcases runTestCase_events _ _ _ _ _ hl with h | h <;> rw [h] <;> rfl

/-- C14: on every exit path of `Execute` after the source file is written —
the compiler failed, or the test cases ran with whatever outcomes — the events
end with the removal of the binary file and of the source file of the run, and
these are the only removals. So when `Execute` returns neither path exists, and
every other path exists exactly if it did before the two removals. -/
theorem Execute_removes_both_files (env : ExecEnv) (code : String)
    (test_cases : List TestCase) (other : Event → Files → Files) (files : Files)
    (hw : env.writeErr = none) :
    ∃ pre : List Event,
      (Execute env code test_cases).2
        = pre ++ [Event.remove (binary_file env.execution_id),
            Event.remove (source_file env.execution_id)] ∧
      (∀ e ∈ pre, e.isRemove = false) ∧
      applyEvents other (Execute env code test_cases).2 files
        (source_file env.execution_id) = false ∧
      applyEvents other (Execute env code test_cases).2 files
        (binary_file env.execution_id) = false ∧
      ∀ p : String, p ≠ source_file env.execution_id → p ≠ binary_file env.execution_id →
        applyEvents other (Execute env code test_cases).2 files p
          = applyEvents other pre files p := by
  obtain ⟨pre, hpre, hnot⟩ := Execute_events_shape env code test_cases hw
  refine ⟨pre, hpre, hnot, ?_, ?_, ?_⟩
  · rw [hpre, applyEvents_removals]
    simp
  · rw [hpre, applyEvents_removals]
    simp
  · intro p hs hb
    rw [hpre, applyEvents_removals]
    simp [hs, hb]

/-- A witness of C14: in `sampleEnv` one case passes, one crashes and one times
out; with the effects of `sampleEffects`, starting from no file and from a file
of someone else, the two files of the run are gone and the other file is
kept. -/
theorem Execute_removes_both_files_witness :
    sampleEnv.writeErr = none ∧
    applyEvents sampleEffects (Execute sampleEnv "int main()\x7b\x7d" sampleCases).2
      (fun p => decide (p = "/tmp/other")) "/tmp/temp_6f1c.cpp" = false ∧
    applyEvents sampleEffects (Execute sampleEnv "int main()\x7b\x7d" sampleCases).2
      (fun p => decide (p = "/tmp/other")) "/tmp/bin_6f1c" = false ∧
    applyEvents sampleEffects (Execute sampleEnv "int main()\x7b\x7d" sampleCases).2
      (fun p => decide (p = "/tmp/other")) "/tmp/other" = true ∧
    applyEvents sampleEffects
      ((Execute sampleEnv "int main()\x7b\x7d" sampleCases).2.take 6)
      (fun p => decide (p = "/tmp/other")) "/tmp/bin_6f1c" = true :=
  (Execute_removes_both_files sampleEnv "int main()\x7b\x7d" sampleCases sampleEffects
    (fun p => decide (p = "/tmp/other")) rfl).elim
    fun _ h => ⟨rfl, h.2.2.1, h.2.2.2.1, by decide, by decide⟩

/-! ## Properties of `ExtractJSON` -/

/-- C19, at the failing input: a response that wraps in a `json` code block a
JSON object whose text contains a code block of its own. `ExtractJSON` cuts the
content at the first run of three backticks after the opening fence, which is
inside the object, and returns a text without closing brace, not the object.
For an object without backticks the object is returned. -/
theorem ExtractJSON_truncates_wrapped_object :
    ExtractJSON ("```json\n" ++ "\x7b\"d\":\"```x```\"\x7d" ++ "\n```") = "\x7b\"d\":\"" ∧
    ExtractJSON ("```json\n" ++ "\x7b\"d\":\"```x```\"\x7d" ++ "\n```")
      ≠ "\x7b\"d\":\"```x```\"\x7d" ∧
    ExtractJSON ("```json\n" ++ "\x7b\"d\":\"x\"\x7d" ++ "\n```") = "\x7b\"d\":\"x\"\x7d" := by
  decide

/-- A text that occurs in `s` has all its characters in `s`. -/
theorem mem_of_containsChars (s p : List Char) (h : containsChars s p = true) :
    ∀ c ∈ p, c ∈ s := by
  obtain ⟨a, b, hab⟩ := (containsChars_iff s p).mp h
  intro c hc
  rw [hab]
  simp [hc]

/-- Without a fence of three backticks in the content, `ExtractJSON` trims the
content and cuts it from its first opening brace to its last closing brace. -/
theorem ExtractJSON_of_no_fence (content : String)
    (h1 : Contains content "```json" = false) (h2 : Contains content "```" = false) :
    ExtractJSON content =
      if Index (TrimSpace content) "\x7b" != -1 && LastIndex (TrimSpace content) "\x7d" != -1
          && LastIndex (TrimSpace content) "\x7d" > Index (TrimSpace content) "\x7b" then
        slice (TrimSpace content) (Index (TrimSpace content) "\x7b")
          (LastIndex (TrimSpace content) "\x7d" + 1)
      else TrimSpace content := by
  unfold ExtractJSON
  simp only [h1, h2]
  cases HasPrefix (TrimSpace content) "\x7b" <;> rfl

/-- Leading characters are dropped up to the first one that stays. -/
theorem dropWhile_append_cons (f : Char → Bool) (a b : List Char) (x : Char)
    (hx : f x = false) : (a ++ x :: b).dropWhile f = a.dropWhile f ++ x :: b := by
  induction a with
  | nil => simp [List.dropWhile, hx]
  | cons y a ih =>
    by_cases hy : f y = true
    · simp [List.dropWhile, hy, ih]
    · simp [List.dropWhile, hy]

/-- Trailing characters are dropped back to the last one that stays. -/
theorem rdropWhile_append_cons (f : Char → Bool) (a b : List Char) (x : Char)
    (hx : f x = false) : (a ++ x :: b).rdropWhile f = a ++ x :: b.rdropWhile f := by
  unfold List.rdropWhile
  have hrev : (a ++ x :: b).reverse = b.reverse ++ x :: a.reverse := by simp
  rw [hrev, dropWhile_append_cons f _ _ x hx]
  simp

/-- The first occurrence of a character that is not in `a` but follows it is
at the length of `a`. -/
theorem indexChars_single (a b : List Char) (x : Char) (hx : x ∉ a) :
    indexChars (a ++ x :: b) [x] = some a.length := by
  induction a with
  | nil => simp [indexChars, startsWith]
  | cons y a ih =>
    have hne : y ≠ x := fun h => hx (by simp [h])
    have hxa : x ∉ a := fun h => hx (by simp [h])
    simp [indexChars, startsWith, hne, ih hxa]

/-- A character that is not in `b` does not occur in `b`. -/
theorem lastIndexChars_none (b : List Char) (x : Char) (hx : x ∉ b) :
    lastIndexChars b [x] = none := by
  induction b with
  | nil => simp [lastIndexChars]
  | cons y b ih =>
    have hne : y ≠ x := fun h => hx (by simp [h])
    have hxb : x ∉ b := fun h => hx (by simp [h])
    simp [lastIndexChars, startsWith, hne, ih hxb]

/-- The last occurrence of a character that follows `a` and is not in `b`
after it is at the length of `a`. -/
theorem lastIndexChars_single (a b : List Char) (x : Char) (hx : x ∉ b) :
    lastIndexChars (a ++ x :: b) [x] = some a.length := by
  induction a with
  | nil => simp [lastIndexChars, startsWith, lastIndexChars_none b x hx]
  | cons y a ih => simp [lastIndexChars, ih]

/-- C20: for a JSON object text `j` (it starts with an opening brace, ends with
a closing brace and has no backtick), a text `p` before it and a text `q`
after it that have no brace and no backtick, `ExtractJSON` returns `j` from
`p`, `j`, `q` put together. -/
theorem ExtractJSON_surrounded (p j q : String)
    (hj1 : j.data.head? = some openBrace) (hj2 : j.data.getLast? = some closeBrace)
    (hj3 : backtick ∉ j.data)
    (hp : openBrace ∉ p.data ∧ closeBrace ∉ p.data ∧ backtick ∉ p.data)
    (hq : openBrace ∉ q.data ∧ closeBrace ∉ q.data ∧ backtick ∉ q.data) :
    ExtractJSON (p ++ j ++ q) = j := by
  obtain ⟨ys, hys⟩ := List.getLast?_eq_some_iff.mp hj2
  have hshape : ∃ m : List Char, j.data = openBrace :: (m ++ [closeBrace]) := by
    cases ys with
    | nil =>
      rw [hys] at hj1
      simp only [List.nil_append, List.head?_cons, Option.some.injEq] at hj1
      exact absurd hj1 (by decide)
    | cons y ys =>
      rw [hys] at hj1
      simp only [List.cons_append, List.head?_cons, Option.some.injEq] at hj1
      exact ⟨ys, by rw [hys, hj1]; rfl⟩
  obtain ⟨m, hm⟩ := hshape
  have hbt : backtick ∉ (p ++ j ++ q).data := by
    simp [String.data_append, hp.2.2, hj3, hq.2.2]
  have h1 : Contains (p ++ j ++ q) "```json" = false := by
    cases hc : Contains (p ++ j ++ q) "```json" with
    | false => rfl
    | true => exact absurd (mem_of_containsChars _ _ hc backtick (by decide)) hbt
  have h2 : Contains (p ++ j ++ q) "```" = false := by
    cases hc : Contains (p ++ j ++ q) "```" with
    | false => rfl
    | true => exact absurd (mem_of_containsChars _ _ hc backtick (by decide)) hbt
  have hp1 : openBrace ∉ p.data.dropWhile isSpace :=
    fun h => hp.1 ((List.dropWhile_suffix isSpace).subset h)
  have hq1 : closeBrace ∉ q.data.rdropWhile isSpace :=
    fun h => hq.2.1 ((List.rdropWhile_prefix isSpace q.data).subset h)
  have htrim : TrimSpace (p ++ j ++ q)
      = String.mk ((p.data.dropWhile isSpace ++ openBrace :: m)
          ++ closeBrace :: q.data.rdropWhile isSpace) := by
    unfold TrimSpace
    have e1 : (p ++ j ++ q).data = p.data ++ openBrace :: (m ++ closeBrace :: q.data) := by
      simp [String.data_append, hm]
    rw [e1, dropWhile_append_cons isSpace _ _ openBrace (by decide)]
    have e2 : p.data.dropWhile isSpace ++ openBrace :: (m ++ closeBrace :: q.data)
        = (p.data.dropWhile isSpace ++ openBrace :: m) ++ closeBrace :: q.data := by
      simp
    rw [e2, rdropWhile_append_cons isSpace _ _ closeBrace (by decide)]
  have hidx : Index (TrimSpace (p ++ j ++ q)) "\x7b"
      = ((p.data.dropWhile isSpace).length : Int) := by
    rw [htrim]
    unfold Index
    have e3 : (String.mk ((p.data.dropWhile isSpace ++ openBrace :: m)
          ++ closeBrace :: q.data.rdropWhile isSpace)).data
        = p.data.dropWhile isSpace
          ++ openBrace :: (m ++ closeBrace :: q.data.rdropWhile isSpace) := by
      simp
    have e4 : "\x7b".data = [openBrace] := rfl
    rw [e3, e4, indexChars_single _ _ openBrace hp1]
  have hlast : LastIndex (TrimSpace (p ++ j ++ q)) "\x7d"
      = ((p.data.dropWhile isSpace ++ openBrace :: m).length : Int) := by
    rw [htrim]
    unfold LastIndex
    have e4 : "\x7d".data = [closeBrace] := rfl
    rw [e4, lastIndexChars_single _ _ closeBrace hq1]
  rw [ExtractJSON_of_no_fence _ h1 h2, hidx, hlast, htrim]
  have hcond : (((p.data.dropWhile isSpace).length : Int) != -1
      && ((p.data.dropWhile isSpace ++ openBrace :: m).length : Int) != -1
      && decide (((p.data.dropWhile isSpace ++ openBrace :: m).length : Int)
          > ((p.data.dropWhile isSpace).length : Int))) = true := by
    simp only [List.length_append, List.length_cons, Bool.and_eq_true, bne_iff_ne, ne_eq,
      decide_eq_true_eq]
    refine ⟨⟨?_, ?_⟩, ?_⟩ <;> omega
  rw [if_pos hcond]
  unfold slice
  have hlo : ((p.data.dropWhile isSpace).length : Int).toNat
      = (p.data.dropWhile isSpace).length := by simp
  have hhi : (((p.data.dropWhile isSpace ++ openBrace :: m).length : Int) + 1).toNat
      = (p.data.dropWhile isSpace).length + (m.length + 2) := by
    simp only [List.length_append, List.length_cons]
    omega
  rw [hlo, hhi]
  apply String.ext
  simp only [List.append_assoc, List.cons_append]
  rw [List.drop_left' rfl, Nat.add_sub_cancel_left, hm]
  have e5 : openBrace :: (m ++ closeBrace :: q.data.rdropWhile isSpace)
      = (openBrace :: (m ++ [closeBrace])) ++ q.data.rdropWhile isSpace := by simp
  rw [e5, List.take_left' (by simp)]

/-- A witness of C20: a JSON object with a nested object, between a sentence
and a word. -/
theorem ExtractJSON_surrounded_witness :
    ExtractJSON ("Here it is: " ++ "\x7b\"a\": \x7b\"b\": 2\x7d\x7d" ++ "\nDone.")
      = "\x7b\"a\": \x7b\"b\": 2\x7d\x7d" :=
  ExtractJSON_surrounded "Here it is: " "\x7b\"a\": \x7b\"b\": 2\x7d\x7d" "\nDone."
    (by decide) (by decide) (by decide) (by decide) (by decide)

/-! ## The results of `runTestCase` -/

/-- C26: every result of `runTestCase`, for every test case and every outcome
of the process, has an empty error when it is passed, and is not passed and has
an empty actual output when its error is not empty. -/
theorem runTestCase_result_invariant (bin : String) (test_case : TestCase)
    (case_number : Int) (obs : ProcObs) :
    ((runTestCase bin test_case case_number obs).1.Passed = true →
      (runTestCase bin test_case case_number obs).1.Error = "") ∧
    ((runTestCase bin test_case case_number obs).1.Error ≠ "" →
      (runTestCase bin test_case case_number obs).1.Passed = false ∧
      (runTestCase bin test_case case_number obs).1.ActualOutput = "") := by
  unfold runTestCase
  cases obs.outcome with
  | timeout => simp
  | done e =>
    by_cases he : e.err = true
    · simp [he]
    · by_cases hx : TrimSpace test_case.ExpectedOutput = ""
      · simp [he, hx]
      · simp [he, hx]

/-! ## When `ValidateCode` succeeds -/

/-- A text is trimmed to the empty string only if it is white space only. -/
theorem blank_of_TrimSpace (s : String) (h : TrimSpace s = "") :
    ∀ c ∈ s.data, isSpace c = true := by
  unfold TrimSpace at h
  have hd : (s.data.dropWhile isSpace).rdropWhile isSpace = [] := congrArg String.data h
  have hall := List.rdropWhile_eq_nil_iff.mp hd
  have hnot := List.head?_dropWhile_not isSpace s.data
  cases hdw : s.data.dropWhile isSpace with
  | nil => exact List.dropWhile_eq_nil_iff.mp hdw
  | cons x xs =>
    rw [hdw] at hnot hall
    have hx : isSpace x = true := hall x (by simp)
    simp only [List.head?_cons] at hnot
    rw [hx] at hnot
    cases hnot

/-- C25: `ValidateCode` succeeds exactly when the text `int main` occurs in
the source, wherever it does (in a comment, inside `print maintenance`); a
source of white space only never has it, so the test for an empty source only
chooses the error. -/
theorem ValidateCode_ok_iff (code : String) :
    (ValidateCode code = none ↔ ∃ a b : List Char, code.data = a ++ "int main".data ++ b) ∧
    ((¬ ∃ a b : List Char, code.data = a ++ "int main".data ++ b) →
      ValidateCode code
        = some (if TrimSpace code = "" then "code cannot be empty"
            else "code must contain a main function")) ∧
    (TrimSpace code = "" → ¬ ∃ a b : List Char, code.data = a ++ "int main".data ++ b) ∧
    ValidateCode "// int main" = none ∧ ValidateCode "print maintenance" = none := by
  have hiff : Contains code "int main" = true
      ↔ ∃ a b : List Char, code.data = a ++ "int main".data ++ b := containsChars_iff _ _
  have hblank : TrimSpace code = "" → ¬ Contains code "int main" = true := by
    intro ht hc
    have hi : Char.ofNat 105 ∈ code.data := mem_of_containsChars _ _ hc _ (by decide)
    have hs := blank_of_TrimSpace code ht _ hi
    exact absurd hs (by decide)
  refine ⟨?_, ?_, ?_, by decide, by decide⟩
  · rw [← hiff]
    unfold ValidateCode
    by_cases ht : TrimSpace code = ""
    · have hc := hblank ht
      simp [ht, hc]
    · cases hc : Contains code "int main" <;> simp [ht, hc]
  · intro hno
    have hc : Contains code "int main" = false := by
      cases hcon : Contains code "int main" with
      | false => rfl
      | true => exact absurd (hiff.mp hcon) hno
    unfold ValidateCode
    by_cases ht : TrimSpace code = ""
    · simp [ht]
    · simp [ht, hc]
  · intro ht hex
    exact hblank ht (hiff.mpr hex)

/-! ## `ExtractJSON` on raw JSON, and applied twice -/

/-- A text that starts with an opening brace and ends with a closing brace is
an opening brace, some text, and a closing brace. -/
theorem braces_shape (l : List Char) (h1 : l.head? = some openBrace)
    (h2 : l.getLast? = some closeBrace) : ∃ m : List Char, l = openBrace :: (m ++ [closeBrace]) := by
  obtain ⟨ys, hys⟩ := List.getLast?_eq_some_iff.mp h2
  cases ys with
  | nil =>
    rw [hys] at h1
    simp only [List.nil_append, List.head?_cons, Option.some.injEq] at h1
    exact absurd h1 (by decide)
  | cons y ys =>
    rw [hys] at h1
    simp only [List.cons_append, List.head?_cons, Option.some.injEq] at h1
    exact ⟨ys, by rw [hys, h1]; rfl⟩

/-- The cut from the first opening brace to the last closing brace keeps a
text that starts with the one and ends with the other. -/
theorem cutBraces_of_braces (t : String) (m : List Char)
    (h : t.data = openBrace :: (m ++ [closeBrace])) : cutBraces t = t := by
  have hidx : Index t "\x7b" = ((([] : List Char).length : Nat) : Int) := by
    unfold Index
    have e4 : "\x7b".data = [openBrace] := rfl
    have e3 : t.data = [] ++ openBrace :: (m ++ [closeBrace]) := by simpa using h
    rw [e3, e4, indexChars_single _ _ openBrace (by simp)]
  have hlast : LastIndex t "\x7d" = (((openBrace :: m).length : Nat) : Int) := by
    unfold LastIndex
    have e4 : "\x7d".data = [closeBrace] := rfl
    have e3 : t.data = (openBrace :: m) ++ closeBrace :: [] := by simpa using h
    rw [e3, e4, lastIndexChars_single _ _ closeBrace (by simp)]
  unfold cutBraces
  simp only [hidx, hlast]
  have hcond : (((([] : List Char).length : Nat) : Int) != -1
      && (((openBrace :: m).length : Nat) : Int) != -1
      && decide ((((openBrace :: m).length : Nat) : Int)
          > ((([] : List Char).length : Nat) : Int))) = true := by
    simp only [List.length_nil, List.length_cons, Bool.and_eq_true, bne_iff_ne, ne_eq,
      decide_eq_true_eq]
    refine ⟨⟨?_, ?_⟩, ?_⟩ <;> omega
  rw [if_pos hcond]
  unfold slice
  apply String.ext
  have hhi : ((((openBrace :: m).length : Nat) : Int) + 1).toNat = m.length + 2 := by
    simp only [List.length_cons]
    omega
  simp only [List.length_nil, Nat.cast_zero, Int.toNat_zero, List.drop_zero, hhi, Nat.sub_zero]
  rw [h]
  exact List.take_of_length_le (by simp)

/-- When the trimmed content starts with an opening brace, `ExtractJSON` cuts
the trimmed content itself. -/
theorem ExtractJSON_of_raw (content : String) (h : HasPrefix (TrimSpace content) "\x7b" = true) :
    ExtractJSON content = cutBraces (TrimSpace content) := by
  unfold ExtractJSON cutBraces
  simp only [h]
  rfl

/-- `ExtractJSON` returns the trimmed content when that starts with an opening
brace and ends with a closing brace. -/
theorem ExtractJSON_of_braces (content : String) (m : List Char)
    (h : (TrimSpace content).data = openBrace :: (m ++ [closeBrace])) :
    ExtractJSON content = TrimSpace content := by
  have hp : HasPrefix (TrimSpace content) "\x7b" = true := by
    unfold HasPrefix
    have e4 : "\x7b".data = [openBrace] := rfl
    rw [h, e4]
    simp [startsWith]
  rw [ExtractJSON_of_raw content hp, cutBraces_of_braces _ m h]

/-- C24: for a content whose trimmed form starts with an opening brace and
ends with a closing brace, `ExtractJSON` returns exactly the trimmed form,
whether it has runs of three backticks or not. -/
theorem ExtractJSON_raw_json (content : String)
    (h1 : (TrimSpace content).data.head? = some openBrace)
    (h2 : (TrimSpace content).data.getLast? = some closeBrace) :
    ExtractJSON content = TrimSpace content := by
  obtain ⟨m, hm⟩ := braces_shape _ h1 h2
  exact ExtractJSON_of_braces content m hm

/-- A witness of C24: a JSON object whose text has a code block, with white
space around it. -/
theorem ExtractJSON_raw_json_witness :
    (TrimSpace "  \x7b\"d\":\"```x```\"\x7d\n").data.head? = some openBrace ∧
    (TrimSpace "  \x7b\"d\":\"```x```\"\x7d\n").data.getLast? = some closeBrace ∧
    TrimSpace "  \x7b\"d\":\"```x```\"\x7d\n" = "\x7b\"d\":\"```x```\"\x7d" ∧
    ExtractJSON "  \x7b\"d\":\"```x```\"\x7d\n" = TrimSpace "  \x7b\"d\":\"```x```\"\x7d\n" :=
  ⟨by decide, by decide, by decide,
    ExtractJSON_raw_json "  \x7b\"d\":\"```x```\"\x7d\n" (by decide) (by decide)⟩

/-- A text has no first occurrence of `p` exactly when `p` does not occur in
it. -/
theorem indexChars_eq_none_iff (s p : List Char) :
    indexChars s p = none ↔ containsChars s p = false := by
  induction s with
  | nil => cases p <;> simp [indexChars, containsChars]
  | cons a s ih =>
    by_cases hs : startsWith (a :: s) p = true
    · simp [indexChars, containsChars, hs]
    · simp [indexChars, containsChars, hs, ih]

/-- A text that starts a cut of `l` starts `l`. -/
theorem startsWith_of_take (l p : List Char) (n : Nat) (h : startsWith (l.take n) p = true) :
    startsWith l p = true := by
  obtain ⟨b, hb⟩ := (startsWith_iff _ _).mp h
  refine (startsWith_iff _ _).mpr ⟨b ++ l.drop n, ?_⟩
  rw [← List.append_assoc, ← hb, List.take_append_drop]

/-- The text before the first occurrence of `p` has no occurrence of `p`. -/
theorem containsChars_take_index (p : List Char) (hp : p ≠ []) :
    ∀ (s : List Char) (m : Nat), indexChars s p = some m → containsChars (s.take m) p = false := by
  intro s
  induction s with
  | nil =>
    intro m _
    cases p with
    | nil => exact absurd rfl hp
    | cons c p => simp [containsChars]
  | cons a s ih =>
    intro m hm
    by_cases hs : startsWith (a :: s) p = true
    · simp only [indexChars, hs, if_true, Option.some.injEq] at hm
      subst hm
      cases p with
      | nil => exact absurd rfl hp
      | cons c p => simp [containsChars]
    · simp only [indexChars, hs, Bool.false_eq_true, if_false, Option.map_eq_some'] at hm
      obtain ⟨k, hk, hkm⟩ := hm
      subst hkm
      have hnot : startsWith ((a :: s).take (k + 1)) p = false := by
        cases hst : startsWith ((a :: s).take (k + 1)) p with
        | false => rfl
        | true => exact absurd (startsWith_of_take _ _ _ hst) hs
      simp only [List.take_succ_cons] at hnot ⊢
      simp [containsChars, hnot, ih k hk]

/-- The first piece of a split has no occurrence of the separator. -/
theorem splitChars_head (p : List Char) (hp : p ≠ []) :
    ∀ (fuel : Nat) (s : List Char), s.length ≤ fuel →
      containsChars ((splitChars p fuel s).headD []) p = false := by
  intro fuel s hlen
  cases fuel with
  | zero =>
    have hs : s = [] := List.length_eq_zero.mp (Nat.le_zero.mp hlen)
    subst hs
    cases p with
    | nil => exact absurd rfl hp
    | cons c p => simp [splitChars, containsChars]
  | succ fuel =>
    unfold splitChars
    cases hi : indexChars s p with
    | none => simpa using (indexChars_eq_none_iff s p).mp hi
    | some m => simpa using containsChars_take_index p hp s m hi

/-- When the separator occurs in the text, the split has a second piece, and
that piece has no occurrence of the separator. -/
theorem splitChars_second (p : List Char) (hp : p ≠ []) (s : List Char)
    (hc : containsChars s p = true) :
    1 < (splitChars p s.length s).length ∧
    containsChars ((splitChars p s.length s).getD 1 []) p = false := by
  have hpos : 0 < p.length := List.length_pos.mpr hp
  have hne : indexChars s p ≠ none := by
    intro hnone
    rw [(indexChars_eq_none_iff s p).mp hnone] at hc
    cases hc
  obtain ⟨m, hm⟩ := Option.ne_none_iff_exists'.mp hne
  cases hlen : s.length with
  | zero =>
    have hs : s = [] := List.length_eq_zero.mp hlen
    subst hs
    cases p with
    | nil => exact absurd rfl hp
    | cons c p => simp [containsChars] at hc
  | succ fuel =>
    have hrest : (s.drop (m + p.length)).length ≤ fuel := by
      rw [List.length_drop]
      omega
    have hhead := splitChars_head p hp fuel (s.drop (m + p.length)) hrest
    have hnonempty : splitChars p fuel (s.drop (m + p.length)) ≠ [] := by
      cases fuel with
      | zero => simp [splitChars]
      | succ f =>
        unfold splitChars
        cases indexChars (s.drop (m + p.length)) p <;> simp
    unfold splitChars
    simp only [hm]
    cases hsp : splitChars p fuel (s.drop (m + p.length)) with
    | nil => exact absurd hsp hnonempty
    | cons x xs =>
      rw [hsp] at hhead
      simpa using hhead

/-- The first occurrence of a character is at a position that holds it. -/
theorem getElem?_of_indexChars (x : Char) :
    ∀ (s : List Char) (k : Nat), indexChars s [x] = some k → s[k]? = some x := by
  intro s
  induction s with
  | nil => intro k hk; simp [indexChars] at hk
  | cons a s ih =>
    intro k hk
    by_cases ha : a = x
    · simp only [indexChars, startsWith, ha, beq_self_eq_true, Bool.and_self, if_true,
        Option.some.injEq] at hk
      subst hk
      simp [ha]
    · simp only [indexChars, startsWith, beq_iff_eq, ha, Bool.and_true, if_false,
        Option.map_eq_some', Bool.false_eq_true, decide_False] at hk
      obtain ⟨j, hj, hjk⟩ := hk
      subst hjk
      simpa using ih j hj

/-- The last occurrence of a character is at a position that holds it. -/
theorem getElem?_of_lastIndexChars (x : Char) :
    ∀ (s : List Char) (k : Nat), lastIndexChars s [x] = some k → s[k]? = some x := by
  intro s
  induction s with
  | nil => intro k hk; simp [lastIndexChars] at hk
  | cons a s ih =>
    intro k hk
    cases hl : lastIndexChars s [x] with
    | some j =>
      simp only [lastIndexChars, hl, Option.some.injEq] at hk
      subst hk
      simpa using ih j hl
    | none =>
      by_cases ha : a = x
      · simp only [lastIndexChars, hl, startsWith, ha, beq_self_eq_true, Bool.and_self, if_true,
          Option.some.injEq] at hk
        subst hk
        simp [ha]
      · simp [lastIndexChars, hl, startsWith, ha] at hk

/-- A text that neither starts nor ends with white space is its own trimmed
form. -/
theorem TrimSpace_of_trimmed (t : String)
    (hhead : ∀ c : Char, t.data.head? = some c → isSpace c = false)
    (hlast : ∀ c : Char, t.data.getLast? = some c → isSpace c = false) :
    TrimSpace t = t := by
  unfold TrimSpace
  apply String.ext
  have hdrop : t.data.dropWhile isSpace = t.data := by
    cases hd : t.data with
    | nil => rfl
    | cons c cs =>
      have hc : isSpace c = false := hhead c (by rw [hd]; rfl)
      simp [List.dropWhile, hc]
  simp only [hdrop]
  rw [List.rdropWhile_eq_self_iff]
  intro hne
  have hl := hlast _ (List.getLast?_eq_getLast _ hne)
  simp [hl]

/-- Trimming a trimmed text changes nothing. -/
theorem TrimSpace_idempotent (s : String) : TrimSpace (TrimSpace s) = TrimSpace s :=
  TrimSpace_of_trimmed _ (TrimSpace_head s) (TrimSpace_last s)

/-- The cut from the first opening brace to the last closing brace either
keeps the text or gives a text that starts with an opening brace and ends with
a closing brace. -/
theorem cutBraces_cases (t : String) :
    cutBraces t = t ∨
    ∃ m : List Char, (cutBraces t).data = openBrace :: (m ++ [closeBrace]) := by
  unfold cutBraces
  by_cases hcond : (Index t "\x7b" != -1 && LastIndex t "\x7d" != -1
      && decide (LastIndex t "\x7d" > Index t "\x7b")) = true
  · right
    simp only [hcond, if_true]
    have e4 : "\x7b".data = [openBrace] := rfl
    have e5 : "\x7d".data = [closeBrace] := rfl
    simp only [Bool.and_eq_true, bne_iff_ne, ne_eq, decide_eq_true_eq] at hcond
    obtain ⟨⟨hs, he⟩, hlt⟩ := hcond
    cases hi : indexChars t.data [openBrace] with
    | none =>
      unfold Index at hs
      rw [e4, hi] at hs
      exact absurd rfl hs
    | some k =>
      cases hj : lastIndexChars t.data [closeBrace] with
      | none =>
        unfold LastIndex at he
        rw [e5, hj] at he
        exact absurd rfl he
      | some e =>
        have hI : Index t "\x7b" = (k : Int) := by
          unfold Index
          rw [e4, hi]
        have hL : LastIndex t "\x7d" = (e : Int) := by
          unfold LastIndex
          rw [e5, hj]
        rw [hI, hL] at hlt
        have hke : k < e := by omega
        have hk := getElem?_of_indexChars openBrace t.data k hi
        have he2 := getElem?_of_lastIndexChars closeBrace t.data e hj
        have hsl : (slice t (Index t "\x7b") (LastIndex t "\x7d" + 1)).data
            = (t.data.drop k).take (e + 1 - k) := by
          rw [hI, hL]
          unfold slice
          have h1 : ((e : Int) + 1).toNat - (k : Int).toNat = e + 1 - k := by omega
          have h0 : (k : Int).toNat = k := by omega
          rw [h1, h0]
        rw [hsl]
        apply braces_shape
        · rw [List.head?_take, List.head?_drop, hk, if_neg (by omega)]
        · rw [List.getLast?_take, if_neg (by omega), List.getElem?_drop]
          have h2 : k + (e + 1 - k - 1) = e := by omega
          rw [h2, he2]
          rfl
  · left
    rw [if_neg hcond]

/-- The first piece of `strings.Split` has no occurrence of the separator. -/
theorem Split_first (s sep : String) (hsep : sep.data ≠ []) :
    Contains ((Split s sep).getD 0 "") sep = false := by
  have hhead := splitChars_head sep.data hsep s.data.length s.data (Nat.le_refl _)
  unfold Split Contains
  have hne : sep.data.isEmpty = false := by
    cases hd : sep.data with
    | nil => exact absurd hd hsep
    | cons c cs => rfl
  simp only [hne, Bool.false_eq_true, if_false]
  cases hsp : splitChars sep.data s.data.length s.data with
  | nil => rw [hsp] at hhead; simpa using hhead
  | cons x xs => rw [hsp] at hhead; simpa using hhead

/-- When the separator occurs in the text, `strings.Split` gives more than one
piece, and the second piece has no occurrence of the separator. -/
theorem Split_second (s sep : String) (hsep : sep.data ≠ [])
    (hc : Contains s sep = true) :
    1 < (Split s sep).length ∧ Contains ((Split s sep).getD 1 "") sep = false := by
  obtain ⟨hlen, hsec⟩ := splitChars_second sep.data hsep s.data hc
  unfold Split Contains
  have hne : sep.data.isEmpty = false := by
    cases hd : sep.data with
    | nil => exact absurd hd hsep
    | cons c cs => rfl
  simp only [hne, Bool.false_eq_true, if_false, List.length_map]
  refine ⟨hlen, ?_⟩
  have hget : ((splitChars sep.data s.data.length s.data).map String.mk).getD 1 ""
      = String.mk ((splitChars sep.data s.data.length s.data).getD 1 []) :=
    List.getD_map _ [] String.mk
  rw [hget]
  exact hsec

/-- A text without a run of three backticks has no opening fence `json`. -/
theorem no_json_fence_of_no_fence (s : String) (h : Contains s "```" = false) :
    Contains s "```json" = false := by
  cases hc : Contains s "```json" with
  | false => rfl
  | true =>
    obtain ⟨a, b, hab⟩ := (containsChars_iff _ _).mp hc
    have h3 : Contains s "```" = true := by
      refine (containsChars_iff _ _).mpr ⟨a, "json".data ++ b, ?_⟩
      rw [hab]
      have e : "```json".data = "```".data ++ "json".data := by decide
      rw [e]
      simp
    rw [h] at h3
    cases h3

/-- Trimming does not create an occurrence of a text. -/
theorem not_Contains_TrimSpace (s p : String) (h : Contains s p = false) :
    Contains (TrimSpace s) p = false := by
  cases hc : Contains (TrimSpace s) p with
  | false => rfl
  | true =>
    obtain ⟨a, b, hab⟩ := (containsChars_iff _ _).mp hc
    obtain ⟨pre, post, _, _, hs⟩ := TrimSpace_decompose s
    have h3 : Contains s p = true := by
      refine (containsChars_iff _ _).mpr ⟨pre ++ a, b ++ post, ?_⟩
      rw [hs, hab]
      simp
    rw [h] at h3
    cases h3

/-- `ExtractJSON` cuts the trimmed form of a text that is the content itself,
when the trimmed content starts with an opening brace, and a text without a
run of three backticks otherwise. -/
theorem ExtractJSON_stage (content : String) :
    ∃ mid : String, ExtractJSON content = cutBraces (TrimSpace mid) ∧
      ((HasPrefix (TrimSpace content) "\x7b" = true ∧ mid = content) ∨
        Contains mid "```" = false) := by
  have hfence : ("```" : String).data ≠ [] := by decide
  by_cases hp : HasPrefix (TrimSpace content) "\x7b" = true
  · exact ⟨content, ExtractJSON_of_raw content hp, Or.inl ⟨hp, rfl⟩⟩
  · have hp2 : HasPrefix (TrimSpace content) "\x7b" = false := by simpa using hp
    by_cases hj : Contains content "```json" = true
    · by_cases hb : Contains
          (if (Split content "```json").length > 1 then (Split content "```json").getD 1 ""
            else content) "```" = true
      · refine ⟨(Split (if (Split content "```json").length > 1
            then (Split content "```json").getD 1 "" else content) "```").getD 0 "", ?_,
          Or.inr (Split_first _ _ hfence)⟩
        unfold ExtractJSON cutBraces
        simp only [hp2, hj, hb, Bool.not_false, if_true]
      · refine ⟨if (Split content "```json").length > 1
            then (Split content "```json").getD 1 "" else content, ?_,
          Or.inr (by simpa using hb)⟩
        unfold ExtractJSON cutBraces
        simp only [hp2, hj, hb, Bool.not_false, if_true, Bool.false_eq_true, if_false]
    · have hj2 : Contains content "```json" = false := by simpa using hj
      by_cases hb : Contains content "```" = true
      · obtain ⟨hlen, hsec⟩ := Split_second content "```" hfence hb
        refine ⟨(Split content "```").getD 1 "", ?_, Or.inr hsec⟩
        unfold ExtractJSON cutBraces
        simp only [hp2, hj2, hb, Bool.not_false, if_true, Bool.false_eq_true, if_false,
          gt_iff_lt, hlen]
      · have hb2 : Contains content "```" = false := by simpa using hb
        exact ⟨content, ExtractJSON_of_no_fence content hj2 hb2, Or.inr hb2⟩

/-- C27: `ExtractJSON` applied to its own result gives that result again. -/
theorem ExtractJSON_idempotent (content : String) :
    ExtractJSON (ExtractJSON content) = ExtractJSON content := by
  obtain ⟨mid, hmid, hcase⟩ := ExtractJSON_stage content
  rw [hmid]
  rcases cutBraces_cases (TrimSpace mid) with hkeep | ⟨m, hm⟩
  · rw [hkeep]
    have hidem := TrimSpace_idempotent mid
    by_cases hp : HasPrefix (TrimSpace mid) "\x7b" = true
    · rw [ExtractJSON_of_raw _ (by rw [hidem]; exact hp), hidem, hkeep]
    · have hno : Contains mid "```" = false := by
        rcases hcase with ⟨hraw, heq⟩ | hno
        · rw [heq] at hp
          exact absurd hraw hp
        · exact hno
      have h3 := not_Contains_TrimSpace mid "```" hno
      have h1 := no_json_fence_of_no_fence _ h3
      rw [ExtractJSON_of_no_fence _ h1 h3, hidem]
      exact hkeep
  · have htrim : TrimSpace (cutBraces (TrimSpace mid)) = cutBraces (TrimSpace mid) := by
      apply TrimSpace_of_trimmed
      · intro c hc
        rw [hm] at hc
        simp only [List.head?_cons, Option.some.injEq] at hc
        subst hc
        decide
      · intro c hc
        rw [hm] at hc
        have hl : (openBrace :: (m ++ [closeBrace])).getLast? = some closeBrace := by
          rw [← List.cons_append, List.getLast?_append]
          rfl
        rw [hl] at hc
        simp only [Option.some.injEq] at hc
        subst hc
        decide
    have hm2 : (TrimSpace (cutBraces (TrimSpace mid))).data = openBrace :: (m ++ [closeBrace]) := by
      rw [htrim, hm]
    rw [ExtractJSON_of_braces _ m hm2, htrim]

/-! ## Properties of `Slugify` -/

/-- The order of characters is the order of their code points. -/
theorem char_le_iff (a b : Char) : a ≤ b ↔ a.toNat ≤ b.toNat := Iff.rfl

/-- The lowercase ASCII letters are the code points 97 to 122. -/
theorem isLower_iff (c : Char) : c.isLower = true ↔ 97 ≤ c.toNat ∧ c.toNat ≤ 122 := by
  simp only [Char.isLower, Bool.and_eq_true, decide_eq_true_eq]
  exact Iff.rfl

/-- The uppercase ASCII letters are the code points 65 to 90. -/
theorem isUpper_iff (c : Char) : c.isUpper = true ↔ 65 ≤ c.toNat ∧ c.toNat ≤ 90 := by
  simp only [Char.isUpper, Bool.and_eq_true, decide_eq_true_eq]
  exact Iff.rfl

/-- The digits are the code points 48 to 57. -/
theorem isDigit_iff (c : Char) : c.isDigit = true ↔ 48 ≤ c.toNat ∧ c.toNat ≤ 57 := by
  simp only [Char.isDigit, Bool.and_eq_true, decide_eq_true_eq]
  exact Iff.rfl

/-- The code point of an uppercase ASCII letter plus 32 is a code point. -/
theorem toNat_ofNat_add_32 (c : Char) (h1 : 65 ≤ c.toNat) (h2 : c.toNat ≤ 90) :
    (Char.ofNat (c.toNat + 32)).toNat = c.toNat + 32 := by
  generalize c.toNat = n at *
  interval_cases n <;> rfl

/-- The loop body of `Slugify` appends what `slugChar` keeps. -/
theorem slugifyAppend_eq (result : String) (char : Char) :
    slugifyAppend result char = result ++ String.mk (slugChar char).toList := by
  have hz : result ++ String.mk [] = result := by
    apply String.ext
    simp [String.data_append]
  unfold slugifyAppend slugChar
  by_cases h1 : ('a' ≤ char ∧ char ≤ 'z') ∨ ('0' ≤ char ∧ char ≤ '9') ∨ char = '-' ∨ char = '_'
  · have hs : (char.isLower || char.isDigit || char == '-' || char == '_') = true := by
      simp only [Bool.or_eq_true, beq_iff_eq, isLower_iff, isDigit_iff]
      rcases h1 with h | h | h | h
      · exact Or.inl (Or.inl (Or.inl h))
      · exact Or.inl (Or.inl (Or.inr h))
      · exact Or.inl (Or.inr h)
      · exact Or.inr h
    rw [if_pos h1, if_pos hs]
    rfl
  · have hs : ¬ (char.isLower || char.isDigit || char == '-' || char == '_') = true := by
      simp only [Bool.or_eq_true, beq_iff_eq, isLower_iff, isDigit_iff]
      intro h
      apply h1
      rcases h with ((h | h) | h) | h
      · exact Or.inl h
      · exact Or.inr (Or.inl h)
      · exact Or.inr (Or.inr (Or.inl h))
      · exact Or.inr (Or.inr (Or.inr h))
    rw [if_neg h1, if_neg hs]
    by_cases h2 : 'A' ≤ char ∧ char ≤ 'Z'
    · have hu : char.isUpper = true := (isUpper_iff char).mpr h2
      have hl : char.toLower = Char.ofNat (char.toNat + 32) := by
        unfold Char.toLower
        exact if_pos h2
      rw [if_pos h2, if_pos hu, hl]
      rfl
    · have hu : ¬ char.isUpper = true := fun h => h2 ((isUpper_iff char).mp h)
      rw [if_neg h2, if_neg hu]
      by_cases h3 : char = ' '
      · have hb : (char == ' ') = true := by simp [h3]
        rw [if_pos h3, if_pos hb]
        rfl
      · have hb : ¬ (char == ' ') = true := by simp [h3]
        rw [if_neg h3, if_neg hb]
        exact hz.symm

/-- The loop of `Slugify`, started from `result`, appends to it what `slugChar`
keeps of each character, in order. -/
theorem foldl_slugifyAppend (l : List Char) :
    ∀ result : String,
      l.foldl slugifyAppend result = result ++ String.mk (l.filterMap slugChar) := by
  induction l with
  | nil =>
    intro result
    apply String.ext
    simp [String.data_append]
  | cons c l ih =>
    intro result
    rw [List.foldl_cons, ih, slugifyAppend_eq]
    apply String.ext
    cases hc : slugChar c <;> simp [String.data_append, List.filterMap_cons, hc]

/-- What `slugChar` keeps is a lowercase ASCII letter, a digit, `-` or `_`. -/
theorem slugChar_allowed (c d : Char) (h : slugChar c = some d) :
    d.isLower = true ∨ d.isDigit = true ∨ d = '-' ∨ d = '_' := by
  unfold slugChar at h
  by_cases hs : (c.isLower || c.isDigit || c == '-' || c == '_') = true
  · rw [if_pos hs] at h
    cases h
    simpa only [Bool.or_eq_true, beq_iff_eq, or_assoc] using hs
  · rw [if_neg hs] at h
    by_cases hu : c.isUpper = true
    · rw [if_pos hu] at h
      cases h
      left
      have hr := (isUpper_iff c).mp hu
      have hl : c.toLower = Char.ofNat (c.toNat + 32) := by
        unfold Char.toLower
        exact if_pos hr
      rw [hl, isLower_iff, toNat_ofNat_add_32 c hr.1 hr.2]
      omega
    · rw [if_neg hu] at h
      by_cases hb : (c == ' ') = true
      · rw [if_pos hb] at h
        cases h
        exact Or.inr (Or.inr (Or.inl rfl))
      · rw [if_neg hb] at h
        cases h

/-- C22: for every string, `Slugify` gives, character by character, what
`slugChar` keeps: lowercase ASCII letters, digits, `-` and `_` as they are,
uppercase ASCII letters in lowercase, spaces as `-`, nothing of the other
characters. So the slug has only lowercase ASCII letters, digits, `-` and `_`;
and the slug of `Dynamic Programming` is `dynamic-programming`. -/
theorem Slugify_spec (s : String) :
    Slugify s = String.mk (s.data.filterMap slugChar) ∧
    (∀ c ∈ (Slugify s).data, c.isLower = true ∨ c.isDigit = true ∨ c = '-' ∨ c = '_') ∧
    Slugify "Dynamic Programming" = "dynamic-programming" := by
  have heq : Slugify s = String.mk (s.data.filterMap slugChar) := by
    unfold Slugify
    rw [foldl_slugifyAppend]
    apply String.ext
    simp [String.data_append]
  refine ⟨heq, ?_, by decide⟩
  intro c hc
  rw [heq] at hc
  obtain ⟨a, _, ha⟩ := List.mem_filterMap.mp hc
  exact slugChar_allowed a c ha

/-! ## Properties of `GenerateSuggestedAreas` -/

/-- Adding to a wrapped integer and wrapping is adding and wrapping. -/
theorem wrapInt_add_left (a b : Int) : wrapInt (wrapInt a + b) = wrapInt (a + b) := by
  unfold wrapInt
  omega

/-- Adding a wrapped integer and wrapping is adding and wrapping. -/
theorem wrapInt_add_right (a b : Int) : wrapInt (a + wrapInt b) = wrapInt (a + b) := by
  unfold wrapInt
  omega

/-- Wrapping twice is wrapping once. -/
theorem wrapInt_wrapInt (a : Int) : wrapInt (wrapInt a) = wrapInt a := by
  unfold wrapInt
  omega

/-- An integer in the range of a Go `int` is its own wrapped value. -/
theorem wrapInt_of_range (x : Int) (h1 : -9223372036854775808 ≤ x)
    (h2 : x < 9223372036854775808) : wrapInt x = x := by
  unfold wrapInt
  omega

/-- The sum of the mapped values of a map with one more entry in front. -/
theorem mappedSum_cons (k : String) (v : Int) (m : List (String × Int)) (area : String) :
    mappedSum ((k, v) :: m) area
      = (if focusAreaMapping.lookup k == some area then v else 0) + mappedSum m area := by
  unfold mappedSum
  by_cases h : (focusAreaMapping.lookup k == some area) = true
  · simp [List.filter_cons, h]
  · simp [List.filter_cons, h]

/-- After `m[key] += delta` the sum of the mapped values has `delta` more when
`key` is mapped to the area, up to wrapping. -/
theorem mappedSum_mapAdd (key : String) (delta : Int) (area : String) :
    ∀ m : List (String × Int),
      wrapInt (mappedSum (mapAdd m key delta) area)
        = wrapInt (mappedSum m area
            + (if focusAreaMapping.lookup key == some area then delta else 0)) := by
  intro m
  induction m with
  | nil =>
    rw [mapAdd, mappedSum_cons]
    by_cases h : (focusAreaMapping.lookup key == some area) = true
    · simp only [h, if_true, mappedSum, List.filter_nil, List.map_nil, List.sum_nil]
      rw [wrapInt_add_left]
      exact congrArg wrapInt (by ring)
    · simp only [h, Bool.false_eq_true, if_false]
      exact congrArg wrapInt (by ring)
  | cons e m ih =>
    obtain ⟨k, v⟩ := e
    by_cases hk : k = key
    · subst hk
      rw [mapAdd, if_pos rfl, mappedSum_cons, mappedSum_cons]
      by_cases h : (focusAreaMapping.lookup k == some area) = true
      · simp only [h, if_true]
        rw [wrapInt_add_left]
        exact congrArg wrapInt (by ring)
      · simp only [h, Bool.false_eq_true, if_false]
        exact congrArg wrapInt (by ring)
    · rw [mapAdd, if_neg hk, mappedSum_cons, mappedSum_cons, ← wrapInt_add_right, ih,
        wrapInt_add_right]
      exact congrArg wrapInt (by ring)

/-- After the loop that adds the counts of a list of tags to a map, the sum of
the mapped values has the sum of the counts of the tags mapped to the area
more, up to wrapping. -/
theorem mappedSum_foldl (lower : Char → Char) (area : String) (tags : List (String × Int)) :
    ∀ m : List (String × Int),
      wrapInt (mappedSum
          (tags.foldl (fun counts entry => mapAdd counts (normalizeTag lower entry.1) entry.2) m)
          area)
        = wrapInt (mappedSum m area + tagSum lower tags area) := by
  induction tags with
  | nil =>
    intro m
    simp [tagSum]
  | cons e tags ih =>
    intro m
    have hsum : tagSum lower (e :: tags) area
        = (if focusAreaMapping.lookup (normalizeTag lower e.1) == some area then e.2 else 0)
          + tagSum lower tags area := by
      unfold tagSum
      by_cases h : (focusAreaMapping.lookup (normalizeTag lower e.1) == some area) = true
      · simp [List.filter_cons, h]
      · simp [List.filter_cons, h]
    rw [List.foldl_cons, ih, ← wrapInt_add_left, mappedSum_mapAdd, wrapInt_add_left, hsum]
    exact congrArg wrapInt (by ring)

/-- The value of an entry after `m[key] += delta`. -/
theorem mapGet_mapAdd (key : String) (delta : Int) (a : String) :
    ∀ m : List (String × Int),
      mapGet (mapAdd m key delta) a
        = if key = a then wrapInt (mapGet m a + delta) else mapGet m a := by
  intro m
  induction m with
  | nil =>
    by_cases h : key = a
    · simp [mapAdd, mapGet, h]
    · simp [mapAdd, mapGet, h]
  | cons e m ih =>
    obtain ⟨k, v⟩ := e
    by_cases hk : k = key
    · subst hk
      by_cases h : k = a
      · simp [mapAdd, mapGet, h]
      · simp [mapAdd, mapGet, h]
    · by_cases h : k = a
      · subst h
        have hne : ¬ key = k := fun hka => hk hka.symm
        simp [mapAdd, mapGet, hk, hne]
      · simp only [mapAdd, hk, if_false, mapGet, h]
        exact ih

/-- The values of a map stay in the range of a Go `int` under `m[key] +=
delta`. -/
theorem wrapped_mapAdd (key : String) (delta : Int) (m : List (String × Int))
    (h : ∀ a : String, wrapInt (mapGet m a) = mapGet m a) :
    ∀ a : String, wrapInt (mapGet (mapAdd m key delta) a) = mapGet (mapAdd m key delta) a := by
  intro a
  rw [mapGet_mapAdd]
  by_cases hk : key = a
  · simp only [hk, if_true, wrapInt_wrapInt]
  · simp only [hk, if_false]
    exact h a

/-- After the loop that builds `areaScores`, the score of an area is its score
before plus the sum of the mapped values of the entries visited, wrapped. -/
theorem mapGet_areaScores (area : String) (entries : List (String × Int)) :
    ∀ scores : List (String × Int), (∀ a : String, wrapInt (mapGet scores a) = mapGet scores a) →
      mapGet
          (entries.foldl
            (fun scores entry =>
              match focusAreaMapping.lookup entry.1 with
              | some area => mapAdd scores area entry.2
              | none => scores)
            scores)
          area
        = wrapInt (mapGet scores area + mappedSum entries area) := by
  induction entries with
  | nil =>
    intro scores h
    simp [mappedSum, h area]
  | cons e entries ih =>
    intro scores h
    obtain ⟨k, v⟩ := e
    rw [List.foldl_cons, mappedSum_cons]
    cases hl : focusAreaMapping.lookup k with
    | none =>
      simp only [hl]
      rw [ih scores h]
      have hne : (none == some area) = false := rfl
      simp only [hne, Bool.false_eq_true, if_false]
      exact congrArg wrapInt (by ring)
    | some ar =>
      simp only [hl]
      rw [ih _ (wrapped_mapAdd ar v scores h), mapGet_mapAdd]
      by_cases har : ar = area
      · subst har
        simp only [if_true, beq_self_eq_true]
        rw [wrapInt_add_left]
        exact congrArg wrapInt (by ring)
      · have hne : (some ar == some area) = false := by simp [har]
        simp only [har, if_false, hne, Bool.false_eq_true]
        exact congrArg wrapInt (by ring)

/-- The sum of the mapped values does not depend on the order of the
entries. -/
theorem mappedSum_perm (l m : List (String × Int)) (h : l.Perm m) (area : String) :
    mappedSum l area = mappedSum m area := by
  unfold mappedSum
  exact ((h.filter _).map _).sum_eq

/-- The loop over the areas, with fewer than three suggestions so far, appends
the first areas with a score below 50 up to three suggestions in all. -/
theorem suggestLoop_eq (areaScores : List (String × Int)) (areas : List String) :
    ∀ suggestions : List String, suggestions.length < 3 →
      suggestLoop areaScores areas suggestions
        = suggestions
          ++ (areas.filter (fun area => decide (mapGet areaScores area < 50))).take
              (3 - suggestions.length) := by
  induction areas with
  | nil =>
    intro suggestions _
    simp [suggestLoop]
  | cons area rest ih =>
    intro suggestions hlen
    unfold suggestLoop
    by_cases hs : mapGet areaScores area < 50
    · simp only [hs, if_true, List.length_append, List.length_singleton, ge_iff_le,
        List.filter_cons, decide_True]
      by_cases h3 : 3 ≤ suggestions.length + 1
      · have h1 : 3 - suggestions.length = 1 := by omega
        rw [if_pos h3, h1]
        simp
      · have hlt : (suggestions ++ [area]).length < 3 := by
          rw [List.length_append, List.length_singleton]
          omega
        rw [if_neg h3, ih _ hlt, List.length_append, List.length_singleton]
        obtain ⟨n, hn⟩ : ∃ n, 3 - suggestions.length = n + 1 := ⟨2 - suggestions.length, by omega⟩
        have hn2 : 3 - (suggestions.length + 1) = n := by omega
        rw [hn, hn2, List.take_succ_cons]
        simp
    · simp only [hs, if_false, List.filter_cons, decide_False, Bool.false_eq_true]
      exact ih suggestions hlen

/-- The sum of the counts of the tags of two lists is the sum of the two
sums. -/
theorem tagSum_append (lower : Char → Char) (l m : List (String × Int)) (area : String) :
    tagSum lower (l ++ m) area = tagSum lower l area + tagSum lower m area := by
  unfold tagSum
  simp [List.filter_append]

/-- The map `tagCounts` built by `GenerateSuggestedAreas` holds, for every
area, the counts of the tags of both platforms mapped to it, up to wrapping. -/
theorem mappedSum_tagCounts (lower : Char → Char) (leetcodeStats : Option LeetCodeStats)
    (codeforcesStats : Option CodeforcesStats) (area : String) :
    wrapInt (mappedSum
        (match codeforcesStats with
          | some stats =>
            stats.Tags.foldl
              (fun counts entry => mapAdd counts (normalizeTag lower entry.1) entry.2)
              (match leetcodeStats with
                | some stats =>
                  stats.Skills.foldl
                    (fun counts entry =>
                      mapAdd counts (normalizeTag lower entry.1) entry.2.ProblemCount)
                    []
                | none => [])
          | none =>
            (match leetcodeStats with
              | some stats =>
                stats.Skills.foldl
                  (fun counts entry =>
                    mapAdd counts (normalizeTag lower entry.1) entry.2.ProblemCount)
                  []
              | none => []))
        area)
      = wrapInt (areaScore lower leetcodeStats codeforcesStats area) := by
  have hleet : ∀ stats : LeetCodeStats,
      stats.Skills.foldl
          (fun counts entry => mapAdd counts (normalizeTag lower entry.1) entry.2.ProblemCount) []
        = (stats.Skills.map (fun entry => (entry.1, entry.2.ProblemCount))).foldl
            (fun counts entry => mapAdd counts (normalizeTag lower entry.1) entry.2) [] := by
    intro stats
    rw [List.foldl_map]
  have hnil : mappedSum [] area = 0 := rfl
  unfold areaScore platformTags
  cases leetcodeStats with
  | none =>
    cases codeforcesStats with
    | none => simp [hnil, tagSum]
    | some cf =>
      simp only [List.nil_append]
      rw [mappedSum_foldl, hnil]
      exact congrArg wrapInt (by ring)
  | some leet =>
    cases codeforcesStats with
    | none =>
      simp only [List.append_nil]
      rw [hleet, mappedSum_foldl, hnil]
      exact congrArg wrapInt (by ring)
    | some cf =>
      simp only
      rw [mappedSum_foldl, ← wrapInt_add_left, hleet, mappedSum_foldl, hnil, wrapInt_add_left,
        tagSum_append]
      exact congrArg wrapInt (by ring)

/-- What `GenerateSuggestedAreas` returns, when the loop over `tagCounts`
visits every entry once: the first three at most of the areas of `allAreas`
whose score, held in a Go `int`, is below 50. -/
theorem GenerateSuggestedAreas_eq (lower : Char → Char)
    (order : List (String × Int) → List (String × Int))
    (leetcodeStats : Option LeetCodeStats) (codeforcesStats : Option CodeforcesStats)
    (horder : ∀ m : List (String × Int), (order m).Perm m) :
    GenerateSuggestedAreas lower order leetcodeStats codeforcesStats
      = (allAreas.filter
          (fun area =>
            decide (wrapInt (areaScore lower leetcodeStats codeforcesStats area) < 50))).take
          3 := by
  unfold GenerateSuggestedAreas
  simp only
  rw [suggestLoop_eq _ _ [] (by decide)]
  simp only [List.nil_append, List.length_nil, Nat.sub_zero]
  congr 2
  funext area
  rw [mapGet_areaScores area _ [] (fun _ => rfl), mappedSum_perm _ _ (horder _)]
  have h0 : mapGet [] area = 0 := rfl
  rw [h0, Int.zero_add]
  cases leetcodeStats <;> cases codeforcesStats <;>
    rw [← mappedSum_tagCounts]

/-- C23, the description as written fails: with the problem count 2^63 - 1
under the LeetCode tag `DP` and one problem under the Codeforces tag `dynamic
programming`, both of which map to the area `dynamic-programming`, the sum of
the problem counts of that area is 2^63, far above 50, and the area is
suggested all the same, as the first of the three; so the result is not the
first three areas whose sum is below 50. -/
theorem overflowing_area_suggested :
    areaScore Char.toLower (some overflowLeetCode) (some overflowCodeforces)
        "dynamic-programming"
      = 9223372036854775808 ∧
    50 ≤ areaScore Char.toLower (some overflowLeetCode) (some overflowCodeforces)
        "dynamic-programming" ∧
    GenerateSuggestedAreas Char.toLower id (some overflowLeetCode) (some overflowCodeforces)
      = ["dynamic-programming", "greedy", "graphs"] ∧
    "dynamic-programming"
      ∈ GenerateSuggestedAreas Char.toLower id (some overflowLeetCode) (some overflowCodeforces) ∧
    GenerateSuggestedAreas Char.toLower id (some overflowLeetCode) (some overflowCodeforces)
      ≠ (allAreas.filter
          (fun area => decide
            (areaScore Char.toLower (some overflowLeetCode) (some overflowCodeforces) area
              < 50))).take
          3 := by
  refine ⟨by decide, by decide, by decide, by decide, by decide⟩

/-- C23, amended: for present or absent LeetCode and Codeforces stats, and
whatever the order in which the loop visits the entries of `tagCounts`,
`GenerateSuggestedAreas` returns the first three at most of the areas of
`allAreas`, in that order, whose score is below 50, where the score of an area
is the sum of the problem counts of the tags of both platforms that
`focusAreaMapping` maps to it after normalisation, held in a Go `int` (the sum
wrapped to 64 bits); an area whose wrapped score is 50 or more is not in the
result. When the sum of every area of `allAreas` is in the 64-bit range, the
score is the sum itself: the result is the first three at most of the areas
whose sum is below 50, and an area whose sum is 50 or more is not in the
result. -/
theorem GenerateSuggestedAreas_spec (lower : Char → Char)
    (order : List (String × Int) → List (String × Int))
    (leetcodeStats : Option LeetCodeStats) (codeforcesStats : Option CodeforcesStats)
    (horder : ∀ m : List (String × Int), (order m).Perm m) :
    GenerateSuggestedAreas lower order leetcodeStats codeforcesStats
      = (allAreas.filter
          (fun area =>
            decide (wrapInt (areaScore lower leetcodeStats codeforcesStats area) < 50))).take
          3 ∧
    (GenerateSuggestedAreas lower order leetcodeStats codeforcesStats).length ≤ 3 ∧
    (∀ area : String, 50 ≤ wrapInt (areaScore lower leetcodeStats codeforcesStats area) →
      area ∉ GenerateSuggestedAreas lower order leetcodeStats codeforcesStats) ∧
    ((∀ area ∈ allAreas,
        -9223372036854775808 ≤ areaScore lower leetcodeStats codeforcesStats area ∧
        areaScore lower leetcodeStats codeforcesStats area < 9223372036854775808) →
      GenerateSuggestedAreas lower order leetcodeStats codeforcesStats
        = (allAreas.filter
            (fun area =>
              decide (areaScore lower leetcodeStats codeforcesStats area < 50))).take 3 ∧
      ∀ area : String, 50 ≤ areaScore lower leetcodeStats codeforcesStats area →
        area ∉ GenerateSuggestedAreas lower order leetcodeStats codeforcesStats) := by
  have heq := GenerateSuggestedAreas_eq lower order leetcodeStats codeforcesStats horder
  have hnot : ∀ area : String,
      50 ≤ wrapInt (areaScore lower leetcodeStats codeforcesStats area) →
      area ∉ GenerateSuggestedAreas lower order leetcodeStats codeforcesStats := by
    intro area hscore hmem
    rw [heq] at hmem
    have hfil := List.mem_of_mem_take hmem
    have hlt := (List.mem_filter.mp hfil).2
    simp only [decide_eq_true_eq] at hlt
    omega
  refine ⟨heq, ?_, hnot, ?_⟩
  · rw [heq, List.length_take]
    exact Nat.min_le_left _ _
  · intro hrange
    have hfilter : allAreas.filter
          (fun area =>
            decide (wrapInt (areaScore lower leetcodeStats codeforcesStats area) < 50))
        = allAreas.filter
          (fun area => decide (areaScore lower leetcodeStats codeforcesStats area < 50)) := by
      apply List.filter_congr
      intro area harea
      rw [wrapInt_of_range _ (hrange area harea).1 (hrange area harea).2]
    refine ⟨by rw [heq, hfilter], ?_⟩
    intro area hscore hmem
    have hall : area ∈ allAreas := by
      rw [heq] at hmem
      exact (List.mem_filter.mp (List.mem_of_mem_take hmem)).1
    have hw := wrapInt_of_range _ (hrange area hall).1 (hrange area hall).2
    exact hnot area (by rw [hw]; exact hscore) hmem

/-- A witness of C23: the sample stats, with the entries of `tagCounts` visited
in reverse order. Every sum is in the 64-bit range; dynamic programming and
greedy have the sum 55 and arrays the sum 70, so the first three areas below 50
are graphs, trees and sorting-searching, and arrays is not suggested. -/
theorem GenerateSuggestedAreas_spec_witness :
    (∀ m : List (String × Int), (List.reverse m).Perm m) ∧
    (∀ area ∈ allAreas,
      -9223372036854775808
          ≤ areaScore Char.toLower (some sampleLeetCode) (some sampleCodeforces) area ∧
        areaScore Char.toLower (some sampleLeetCode) (some sampleCodeforces) area
          < 9223372036854775808) ∧
    GenerateSuggestedAreas Char.toLower List.reverse (some sampleLeetCode) (some sampleCodeforces)
      = ["graphs", "trees", "sorting-searching"] ∧
    allAreas.map (areaScore Char.toLower (some sampleLeetCode) (some sampleCodeforces))
      = [55, 55, 20, 0, 70, 0, 0, 0, 0, 0] ∧
    GenerateSuggestedAreas Char.toLower List.reverse (some sampleLeetCode) (some sampleCodeforces)
      = (allAreas.filter
          (fun area => decide
            (areaScore Char.toLower (some sampleLeetCode) (some sampleCodeforces) area < 50))).take
          3 ∧
    "arrays-strings"
      ∉ GenerateSuggestedAreas Char.toLower List.reverse (some sampleLeetCode)
          (some sampleCodeforces) :=
  ⟨fun m => List.reverse_perm m, by decide, by decide, by decide,
    ((GenerateSuggestedAreas_spec Char.toLower List.reverse (some sampleLeetCode)
      (some sampleCodeforces) (fun m => List.reverse_perm m)).2.2.2 (by decide)).1,
    ((GenerateSuggestedAreas_spec Char.toLower List.reverse (some sampleLeetCode)
      (some sampleCodeforces) (fun m => List.reverse_perm m)).2.2.2 (by decide)).2
      "arrays-strings" (by decide)⟩

/-! ## Properties of `FormatMarkdownDescription` -/

/-- The first `n` bytes of a text hold at most `n` runes. -/
theorem runesOfBytes_length_le (s : List Char) : ∀ n : Nat, (runesOfBytes s n).length ≤ n := by
  induction s with
  | nil => intro n; simp [runesOfBytes]
  | cons c s ih =>
    intro n
    cases n with
    | zero => simp [runesOfBytes]
    | succ m =>
      unfold runesOfBytes
      have hpos := Char.utf8Size_pos c
      by_cases hsz : c.utf8Size ≤ m + 1
      · rw [if_pos hsz, List.length_cons]
        have := ih (m + 1 - c.utf8Size)
        omega
      · rw [if_neg hsz, List.length_replicate]

/-- Texts that are equal under case folding have the same number of runes. -/
theorem equalFoldRunes_length :
    ∀ a b : List Char, equalFoldRunes a b = true → a.length = b.length := by
  intro a
  induction a with
  | nil =>
    intro b h
    cases b with
    | nil => rfl
    | cons x b => simp [equalFoldRunes] at h
  | cons y a ih =>
    intro b h
    cases b with
    | nil => simp [equalFoldRunes] at h
    | cons x b =>
      simp only [equalFoldRunes, Bool.and_eq_true] at h
      simp [ih b h.2]

/-- A character of one byte is an ASCII character. -/
theorem ascii_of_utf8Size (c : Char) (h : c.utf8Size ≤ 1) : c.toNat < 128 := by
  unfold Char.utf8Size at h
  by_cases h1 : c.val ≤ UInt32.ofNatCore 127 (by decide)
  · have h2 : c.val.toNat ≤ 127 := h1
    exact Nat.lt_succ_of_le h2
  · simp only [h1, if_false] at h
    split at h <;> (try split at h) <;> omega

/-- Two ASCII characters that are equal under case folding have the same
lowercase form. -/
theorem toLower_eq_of_foldEq (sr tr : Char) (hs : sr.toNat < 128) (ht : tr.toNat < 128)
    (h : foldEq sr tr = true) : sr.toLower = tr.toLower := by
  unfold foldEq at h
  simp only [Bool.or_eq_true, beq_iff_eq] at h
  rcases h with h | h
  · rw [h]
  · have hhi : max sr.toNat tr.toNat < 128 := by omega
    rw [if_pos hhi] at h
    simp only [decide_eq_true_eq] at h
    have hs2 := Char.ofNat_toNat sr
    have ht2 := Char.ofNat_toNat tr
    unfold Char.toLower
    by_cases hle : sr.toNat ≤ tr.toNat
    · have h1 : min sr.toNat tr.toNat = sr.toNat := by omega
      have h2 : max sr.toNat tr.toNat = tr.toNat := by omega
      rw [h1, h2] at h
      have hsr : sr.toNat ≥ 65 ∧ sr.toNat ≤ 90 := ⟨h.1, h.2.1⟩
      have htr : ¬ (tr.toNat ≥ 65 ∧ tr.toNat ≤ 90) := by omega
      simp only [hsr, htr, and_self, if_true, if_false]
      rw [← h.2.2, ht2]
    · have h1 : min sr.toNat tr.toNat = tr.toNat := by omega
      have h2 : max sr.toNat tr.toNat = sr.toNat := by omega
      rw [h1, h2] at h
      have htr : tr.toNat ≥ 65 ∧ tr.toNat ≤ 90 := ⟨h.1, h.2.1⟩
      have hsr : ¬ (sr.toNat ≥ 65 ∧ sr.toNat ≤ 90) := by omega
      simp only [hsr, htr, and_self, if_true, if_false]
      rw [← h.2.2, hs2]

/-- The replacement rune U+FFFD is equal under case folding to no ASCII
character. -/
theorem foldEq_replacement (tr : Char) (ht : tr.toNat < 128) :
    foldEq (Char.ofNat 0xFFFD) tr = false := by
  have hr : (Char.ofNat 0xFFFD).toNat = 65533 := rfl
  have hne : ¬ Char.ofNat 0xFFFD = tr := by
    intro h
    rw [← h, hr] at ht
    omega
  unfold foldEq
  rw [hr]
  have h1 : min 65533 tr.toNat = tr.toNat := by omega
  have h2 : max 65533 tr.toNat = 65533 := by omega
  have hb : (Char.ofNat 0xFFFD == tr) = false := beq_eq_false_iff_ne.mpr hne
  simp [h1, h2, hb]

/-- When the first `n` bytes of `s` are equal under case folding to an ASCII
text of `n` characters, the first `n` characters of `s` have the same
lowercase forms as the text. -/
theorem take_of_equalFoldRunes (s : List Char) :
    ∀ (n : Nat) (t : List Char), (∀ c ∈ t, c.toNat < 128) → t.length = n →
      equalFoldRunes (runesOfBytes s n) t = true →
      (s.take n).map Char.toLower = t.map Char.toLower := by
  induction s with
  | nil =>
    intro n t _ hlen h
    cases t with
    | nil => simp
    | cons x t => simp [runesOfBytes, equalFoldRunes] at h
  | cons c s ih =>
    intro n t hascii hlen h
    cases n with
    | zero =>
      have ht : t = [] := List.length_eq_zero.mp hlen
      subst ht
      simp
    | succ m =>
      cases t with
      | nil => simp at hlen
      | cons tr t =>
        have htr : tr.toNat < 128 := hascii tr (by simp)
        have ht : ∀ x ∈ t, x.toNat < 128 := fun x hx => hascii x (by simp [hx])
        have hlen2 : t.length = m := by simpa using hlen
        unfold runesOfBytes at h
        by_cases hsz : c.utf8Size ≤ m + 1
        · rw [if_pos hsz] at h
          simp only [equalFoldRunes, Bool.and_eq_true] at h
          have hl := equalFoldRunes_length _ _ h.2
          have hle := runesOfBytes_length_le s (m + 1 - c.utf8Size)
          have hpos := Char.utf8Size_pos c
          have hone : c.utf8Size = 1 := by omega
          have hm : m + 1 - c.utf8Size = m := by omega
          rw [hm] at h
          have hc : c.toNat < 128 := ascii_of_utf8Size c (by omega)
          simp only [List.take_succ_cons, List.map_cons]
          rw [ih m t ht hlen2 h.2, toLower_eq_of_foldEq c tr hc htr h.1]
        · rw [if_neg hsz, List.replicate_succ] at h
          simp only [equalFoldRunes, Bool.and_eq_true] at h
          rw [foldEq_replacement tr htr] at h
          exact absurd h.1 (by decide)

/-- The header names are ASCII texts, and none is the start of another, in any
letter case. -/
theorem headers_facts :
    (∀ h ∈ headers, h.utf8ByteSize = h.data.length ∧ ∀ c ∈ h.data, c.toNat < 128) ∧
    (∀ h1 ∈ headers, ∀ h2 ∈ headers,
      (h1.data.map Char.toLower).isPrefixOf (h2.data.map Char.toLower) = true → h1 = h2) := by
  decide

/-- A text starts, ignoring case, with at most one of the header names. -/
theorem header_unique (s h1 h2 : String) (m1 : h1 ∈ headers) (m2 : h2 ∈ headers)
    (s1 : StringStartsWithIgnoreCase s h1 = true)
    (s2 : StringStartsWithIgnoreCase s h2 = true) : h1 = h2 := by
  have key : ∀ h ∈ headers, StringStartsWithIgnoreCase s h = true →
      (s.data.take h.data.length).map Char.toLower = h.data.map Char.toLower := by
    intro h hm hs
    obtain ⟨hsize, hascii⟩ := headers_facts.1 h hm
    unfold StringStartsWithIgnoreCase at hs
    by_cases hlt : s.utf8ByteSize < h.utf8ByteSize
    · rw [if_pos hlt] at hs
      cases hs
    · rw [if_neg hlt, hsize] at hs
      exact take_of_equalFoldRunes s.data _ h.data hascii rfl hs
  have k1 := key h1 m1 s1
  have k2 := key h2 m2 s2
  by_cases hle : h1.data.length ≤ h2.data.length
  · apply headers_facts.2 h1 m1 h2 m2
    rw [List.isPrefixOf_iff_prefix, ← k1, ← k2, List.map_take, List.map_take]
    have hmin : h1.data.length = min h1.data.length h2.data.length := by omega
    rw [hmin, ← List.take_take]
    exact List.take_prefix _ _
  · symm
    apply headers_facts.2 h2 m2 h1 m1
    rw [List.isPrefixOf_iff_prefix, ← k1, ← k2, List.map_take, List.map_take]
    have hmin : h2.data.length = min h2.data.length h1.data.length := by omega
    rw [hmin, ← List.take_take]
    exact List.take_prefix _ _

/-- The loop over the headers recognises no header when the only header the
cleaned line starts with does not pass the tests on the line. -/
theorem headerLoop_none (line trimmed clean header : String)
    (hhash : HasPrefix trimmed "#" = false)
    (hshort : (decide (clean.utf8ByteSize < header.utf8ByteSize + 3)
      || HasSuffix clean ":") = false) :
    ∀ hs : List String, (∀ h ∈ hs, StringStartsWithIgnoreCase clean h = true → h = header) →
      headerLoop line trimmed clean hs = none := by
  intro hs
  induction hs with
  | nil => intro _; rfl
  | cons h rest ih =>
    intro huniq
    have hrest : ∀ x ∈ rest, StringStartsWithIgnoreCase clean x = true → x = header :=
      fun x hx => huniq x (by simp [hx])
    unfold headerLoop
    by_cases hst : StringStartsWithIgnoreCase clean h = true
    · have hh : h = header := huniq h (by simp) hst
      subst hh
      simp only [hst, if_true, hhash, Bool.false_eq_true, if_false, hshort]
      exact ih hrest
    · simp only [hst, if_false]
      exact ih hrest

/-- The loop over the headers decides on the one header the cleaned line starts
with. -/
theorem headerLoop_found (line trimmed clean header : String)
    (hstart : StringStartsWithIgnoreCase clean header = true) :
    ∀ hs : List String, header ∈ hs →
      (∀ h ∈ hs, StringStartsWithIgnoreCase clean h = true → h = header) →
      headerLoop line trimmed clean hs
        = if HasPrefix trimmed "#" = true then some line
          else if (decide (clean.utf8ByteSize < header.utf8ByteSize + 3)
              || HasSuffix clean ":") = true then some ("## " ++ header)
          else none := by
  intro hs
  induction hs with
  | nil => intro hmem; simp at hmem
  | cons h rest ih =>
    intro hmem huniq
    have hrest : ∀ x ∈ rest, StringStartsWithIgnoreCase clean x = true → x = header :=
      fun x hx => huniq x (by simp [hx])
    unfold headerLoop
    by_cases hh : h = header
    · subst hh
      simp only [hstart, if_true]
      by_cases hhash : HasPrefix trimmed "#" = true
      · simp only [hhash, if_true]
      · have hhash2 : HasPrefix trimmed "#" = false := by simpa using hhash
        simp only [hhash2, Bool.false_eq_true, if_false]
        by_cases hshort : (decide (clean.utf8ByteSize < h.utf8ByteSize + 3)
            || HasSuffix clean ":") = true
        · simp only [hshort, if_true]
        · have hshort2 : (decide (clean.utf8ByteSize < h.utf8ByteSize + 3)
              || HasSuffix clean ":") = false := by simpa using hshort
          simp only [hshort2, Bool.false_eq_true, if_false]
          exact headerLoop_none line trimmed clean h hhash2 hshort2 rest hrest
    · have hst : ¬ StringStartsWithIgnoreCase clean h = true := fun hs => hh (huniq h (by simp) hs)
      have hmem2 : header ∈ rest := by
        rcases List.mem_cons.mp hmem with h1 | h1
        · exact absurd h1.symm hh
        · exact h1
      simp only [hst, if_false]
      exact ih hmem2 hrest

/-- A text of one character occurs in `l` exactly when the character is in
`l`. -/
theorem containsChars_single (l : List Char) (x : Char) :
    containsChars l [x] = true ↔ x ∈ l := by
  rw [containsChars_iff]
  constructor
  · rintro ⟨a, b, hab⟩
    rw [hab]
    simp
  · intro hx
    obtain ⟨a, b, hab⟩ := List.append_of_mem hx
    exact ⟨a, b, by rw [hab]; simp⟩

/-- No piece of a split has an occurrence of the separator. -/
theorem splitChars_pieces (p : List Char) (hp : p ≠ []) :
    ∀ (fuel : Nat) (s : List Char), s.length ≤ fuel →
      ∀ piece ∈ splitChars p fuel s, containsChars piece p = false := by
  have hpos : 0 < p.length := List.length_pos.mpr hp
  intro fuel
  induction fuel with
  | zero =>
    intro s hlen piece hmem
    have hs : s = [] := List.length_eq_zero.mp (Nat.le_zero.mp hlen)
    subst hs
    simp only [splitChars, List.mem_singleton] at hmem
    subst hmem
    cases p with
    | nil => exact absurd rfl hp
    | cons c p => simp [containsChars]
  | succ fuel ih =>
    intro s hlen piece hmem
    unfold splitChars at hmem
    cases hi : indexChars s p with
    | none =>
      simp only [hi, List.mem_singleton] at hmem
      rw [hmem]
      exact (indexChars_eq_none_iff s p).mp hi
    | some m =>
      simp only [hi, List.mem_cons] at hmem
      rcases hmem with h | h
      · rw [h]
        exact containsChars_take_index p hp s m hi
      · refine ih (s.drop (m + p.length)) ?_ piece h
        rw [List.length_drop]
        omega

/-- A split has at least one piece. -/
theorem splitChars_ne_nil (p : List Char) (fuel : Nat) (s : List Char) :
    splitChars p fuel s ≠ [] := by
  cases fuel with
  | zero => simp [splitChars]
  | succ f =>
    unfold splitChars
    cases indexChars s p <;> simp

/-- The lines joined by newlines have at least as many characters as there
are newlines between them. -/
theorem Join_length (ls : List String) :
    ls.length ≤ (Join ls "\n").data.length + 1 := by
  induction ls with
  | nil => simp
  | cons a rest ih =>
    cases rest with
    | nil => simp [Join]
    | cons b rest =>
      have e : ("\n" : String).data.length = 1 := rfl
      simp only [Join, String.data_append, List.length_append, List.length_cons, e] at ih ⊢
      omega

/-- Splitting at newlines the join by newlines of lines without newline gives
the lines back. -/
theorem splitChars_Join (ls : List String) (hne : ls ≠ [])
    (hno : ∀ l ∈ ls, Char.ofNat 10 ∉ l.data) :
    ∀ fuel : Nat, ls.length ≤ fuel + 1 →
      splitChars [Char.ofNat 10] fuel (Join ls "\n").data = ls.map String.data := by
  induction ls with
  | nil => exact absurd rfl hne
  | cons a rest ih =>
    intro fuel hfuel
    have ha : Char.ofNat 10 ∉ a.data := hno a (by simp)
    cases rest with
    | nil =>
      have hnone : indexChars a.data [Char.ofNat 10] = none := by
        rw [indexChars_eq_none_iff]
        cases hc : containsChars a.data [Char.ofNat 10] with
        | false => rfl
        | true => exact absurd ((containsChars_single _ _).mp hc) ha
      cases fuel with
      | zero => simp [Join, splitChars]
      | succ f => simp [Join, splitChars, hnone]
    | cons b rest =>
      have hrest : ∀ l ∈ b :: rest, Char.ofNat 10 ∉ l.data := fun l hl => hno l (by simp [hl])
      cases fuel with
      | zero => simp at hfuel
      | succ f =>
        have hdata : (Join (a :: b :: rest) "\n").data
            = a.data ++ Char.ofNat 10 :: (Join (b :: rest) "\n").data := by
          have e : ("\n" : String).data = [Char.ofNat 10] := rfl
          simp [Join, String.data_append, e]
        have hidx := indexChars_single a.data (Join (b :: rest) "\n").data (Char.ofNat 10) ha
        rw [hdata]
        unfold splitChars
        simp only [hidx, List.length_singleton]
        have htake : (a.data ++ Char.ofNat 10 :: (Join (b :: rest) "\n").data).take a.data.length
            = a.data := List.take_left' rfl
        have hdrop : (a.data ++ Char.ofNat 10 :: (Join (b :: rest) "\n").data).drop
            (a.data.length + 1) = (Join (b :: rest) "\n").data := by
          have e2 : a.data ++ Char.ofNat 10 :: (Join (b :: rest) "\n").data
              = (a.data ++ [Char.ofNat 10]) ++ (Join (b :: rest) "\n").data := by simp
          rw [e2]
          exact List.drop_left' (by simp)
        rw [htake, hdrop, ih (by simp) hrest f (by simpa using hfuel)]
        rfl

/-- What `formatLine` gives is the line or `## ` and a header name. -/
theorem formatLine_cases (line : String) :
    formatLine line = line ∨ ∃ h ∈ headers, formatLine line = "## " ++ h := by
  have hloop : ∀ hs : List String,
      headerLoop line (TrimSpace line) (TrimLeft (TrimSpace line) "*_# ") hs = none ∨
      headerLoop line (TrimSpace line) (TrimLeft (TrimSpace line) "*_# ") hs = some line ∨
      ∃ h ∈ hs, headerLoop line (TrimSpace line) (TrimLeft (TrimSpace line) "*_# ") hs
        = some ("## " ++ h) := by
    intro hs
    induction hs with
    | nil => exact Or.inl rfl
    | cons h rest ih =>
      have hrest : headerLoop line (TrimSpace line) (TrimLeft (TrimSpace line) "*_# ") rest = none ∨
          headerLoop line (TrimSpace line) (TrimLeft (TrimSpace line) "*_# ") rest = some line ∨
          ∃ x ∈ h :: rest,
            headerLoop line (TrimSpace line) (TrimLeft (TrimSpace line) "*_# ") rest
              = some ("## " ++ x) := by
        rcases ih with h1 | h1 | ⟨x, hx, h1⟩
        · exact Or.inl h1
        · exact Or.inr (Or.inl h1)
        · exact Or.inr (Or.inr ⟨x, by simp [hx], h1⟩)
      unfold headerLoop
      by_cases hst : StringStartsWithIgnoreCase (TrimLeft (TrimSpace line) "*_# ") h = true
      · rw [if_pos hst]
        by_cases hhash : HasPrefix (TrimSpace line) "#" = true
        · rw [if_pos hhash]
          exact Or.inr (Or.inl rfl)
        · rw [if_neg hhash]
          by_cases hshort : (decide ((TrimLeft (TrimSpace line) "*_# ").utf8ByteSize
              < h.utf8ByteSize + 3) || HasSuffix (TrimLeft (TrimSpace line) "*_# ") ":") = true
          · rw [if_pos hshort]
            exact Or.inr (Or.inr ⟨h, by simp, rfl⟩)
          · rw [if_neg hshort]
            exact hrest
      · rw [if_neg hst]
        exact hrest
  unfold formatLine
  rcases hloop headers with h1 | h1 | ⟨x, hx, h1⟩
  · exact Or.inl (by simp only [h1])
  · exact Or.inl (by simp only [h1])
  · exact Or.inr ⟨x, hx, by simp only [h1]⟩

/-- The lines of the output of `FormatMarkdownDescription` are the formatted
lines of the description, one for one. -/
theorem FormatMarkdownDescription_lines (description : String) :
    Split (FormatMarkdownDescription description) "\n"
      = (Split description "\n").map formatLine := by
  have e : ("\n" : String).data = [Char.ofNat 10] := rfl
  have hsplit : ∀ s : String,
      Split s "\n" = (splitChars [Char.ofNat 10] s.data.length s.data).map String.mk := by
    intro s
    unfold Split
    rw [e]
    rfl
  have hin : ∀ l ∈ Split description "\n", Char.ofNat 10 ∉ l.data := by
    intro l hl
    rw [hsplit] at hl
    obtain ⟨piece, hp, hpl⟩ := List.mem_map.mp hl
    have hc := splitChars_pieces [Char.ofNat 10] (by simp) _ _ (Nat.le_refl _) piece hp
    intro hmem
    rw [← hpl] at hmem
    rw [(containsChars_single piece _).mpr hmem] at hc
    cases hc
  have hout : ∀ l ∈ (Split description "\n").map formatLine, Char.ofNat 10 ∉ l.data := by
    intro l hl
    obtain ⟨x, hx, hxl⟩ := List.mem_map.mp hl
    rcases formatLine_cases x with h1 | ⟨h, hh, h1⟩
    · rw [← hxl, h1]
      exact hin x hx
    · rw [← hxl, h1]
      have hheaders : ∀ h ∈ headers, Char.ofNat 10 ∉ ("## " ++ h).data := by decide
      exact hheaders h hh
  have hne : (Split description "\n").map formatLine ≠ [] := by
    rw [hsplit]
    intro hnil
    simp only [List.map_eq_nil_iff] at hnil
    exact splitChars_ne_nil _ _ _ hnil
  unfold FormatMarkdownDescription
  rw [hsplit (Join _ _), splitChars_Join _ hne hout _ (Join_length _)]
  simp


/-- Counterexample to C21: the line `**Input Format:**` is, without its
emphasis markers and its colon, the header name `Input Format`, but
`FormatMarkdownDescription` leaves it as it is, and the output line does not
start with `#`: the cleaned line `Input Format:**` has three bytes after the
name and does not end with a colon. -/
theorem bold_header_with_colon_kept :
    String.mk ("**Input Format:**".data.filter (fun c => c != '*' && c != '_' && c != ':'))
      = "Input Format" ∧
    "Input Format" ∈ headers ∧
    FormatMarkdownDescription "**Input Format:**\nTwo integers."
      = "**Input Format:**\nTwo integers." ∧
    formatLine "**Input Format:**" = "**Input Format:**" ∧
    HasPrefix (formatLine "**Input Format:**") "#" = false ∧
    formatLine "***Explanation***" = "***Explanation***" := by
  decide

/-- C21, amended: `FormatMarkdownDescription` formats the lines of the
description one by one: the lines of its output are the formatted lines of the
description. For a line whose cleaned content — the line without
surrounding white space and without leading `*`, `_`, `#` and blanks — starts,
in any letter case, with one of the nine header names: when the line without
surrounding white space begins with `#`, the output line is the line itself;
otherwise, when the cleaned content has fewer than three bytes more than the
name or ends with a colon, the output line is `## ` and the header name; and
otherwise the output line is the line itself. -/
theorem formatLine_of_header (description line header : String) (hmem : header ∈ headers)
    (hstart : StringStartsWithIgnoreCase (TrimLeft (TrimSpace line) "*_# ") header = true) :
    FormatMarkdownDescription description
      = Join ((Split description "\n").map formatLine) "\n" ∧
    Split (FormatMarkdownDescription description) "\n"
      = (Split description "\n").map formatLine ∧
    (HasPrefix (TrimSpace line) "#" = true → formatLine line = line) ∧
    (HasPrefix (TrimSpace line) "#" = false →
      ((TrimLeft (TrimSpace line) "*_# ").utf8ByteSize < header.utf8ByteSize + 3 ∨
        HasSuffix (TrimLeft (TrimSpace line) "*_# ") ":" = true) →
      formatLine line = "## " ++ header) ∧
    (HasPrefix (TrimSpace line) "#" = false →
      ¬ (TrimLeft (TrimSpace line) "*_# ").utf8ByteSize < header.utf8ByteSize + 3 →
      HasSuffix (TrimLeft (TrimSpace line) "*_# ") ":" = false →
      formatLine line = line) := by
  have hloop := headerLoop_found line (TrimSpace line) (TrimLeft (TrimSpace line) "*_# ") header
    hstart headers hmem
    (fun h hm hs => header_unique _ h header hm hmem hs hstart)
  refine ⟨rfl, FormatMarkdownDescription_lines description, ?_, ?_, ?_⟩
  · intro hhash
    unfold formatLine
    simp only [hloop, hhash, if_true]
  · intro hhash hshort
    have hs : (decide ((TrimLeft (TrimSpace line) "*_# ").utf8ByteSize < header.utf8ByteSize + 3)
        || HasSuffix (TrimLeft (TrimSpace line) "*_# ") ":") = true := by
      rcases hshort with h | h
      · simp [h]
      · simp [h]
    unfold formatLine
    simp only [hloop, hhash, Bool.false_eq_true, if_false, hs, if_true]
  · intro hhash hlong hsuffix
    have hs : (decide ((TrimLeft (TrimSpace line) "*_# ").utf8ByteSize < header.utf8ByteSize + 3)
        || HasSuffix (TrimLeft (TrimSpace line) "*_# ") ":") = false := by
      simp [hlong, hsuffix]
    unfold formatLine
    simp only [hloop, hhash, Bool.false_eq_true, if_false, hs]

/-- A witness of C21, amended: the bold line `**input format**`, in lowercase,
becomes `## Input Format`. -/
theorem formatLine_of_header_witness :
    "Input Format" ∈ headers ∧
    StringStartsWithIgnoreCase (TrimLeft (TrimSpace "  **input format**") "*_# ") "Input Format"
      = true ∧
    formatLine "  **input format**" = "## Input Format" ∧
    FormatMarkdownDescription "  **input format**\nTwo integers.\nconstraints:\n# Example"
      = "## Input Format\nTwo integers.\n## Constraints\n# Example" :=
  ⟨by decide, by decide,
    (formatLine_of_header "" "  **input format**" "Input Format" (by decide) (by decide)).2.2.2.1
      (by decide) (Or.inl (by decide)),
    by decide⟩

end SimulateInterview
